import Mathlib

/-!
Verification of the deduplication core of the Internships-agents repository
(`src/tools/dedup.py`, class `DeduplicationManager`).

The Python code is shallowly embedded: every definition below mirrors a
specific function or loop of `dedup.py` (or of the Python standard-library
routines it calls: `re.sub`-based normalization, `difflib.SequenceMatcher`
and `hashlib.md5`).  Character classes (`\w`, `\s`, `str.lower`) are modelled
on their ASCII fragment, which covers every character class decision the
claims exercise; Python floats are modelled as exact rationals.
-/

/-- ASCII fragment of Python's `\s` class (the whitespace characters
recognized by `re.sub(r'\s+', ' ', ...)` and `str.split()`): space, tab,
newline, carriage return, vertical tab, form feed. -/
def isSpaceChar (c : Char) : Bool :=
  decide (c.toNat = 32 ∨ c.toNat = 9 ∨ c.toNat = 10 ∨ c.toNat = 13 ∨
    c.toNat = 11 ∨ c.toNat = 12)

/-- ASCII fragment of Python's `\w` class: `[A-Za-z0-9_]` (the characters
kept by `re.sub(r'[^\w\s]', '', ...)` besides whitespace). -/
def isWordChar (c : Char) : Bool :=
  decide ((65 ≤ c.toNat ∧ c.toNat ≤ 90) ∨ (97 ≤ c.toNat ∧ c.toNat ≤ 122) ∨
    (48 ≤ c.toNat ∧ c.toNat ≤ 57) ∨ c.toNat = 95)

/-- A character surviving `re.sub(r'[^\w\s]', '', text)`. -/
def keepChar (c : Char) : Bool :=
  isWordChar c || isSpaceChar c

/-- ASCII `str.lower` on a single character: map `A`-`Z` (65-90) to
`a`-`z` (97-122). -/
def toLowerCh (c : Char) : Char :=
  if 65 ≤ c.toNat ∧ c.toNat ≤ 90 then Char.ofNat (c.toNat + 32) else c

/-- ASCII `str.upper` on a single character (used only to state that the
fingerprint is insensitive to field casing). -/
def toUpperCh (c : Char) : Char :=
  if 97 ≤ c.toNat ∧ c.toNat ≤ 122 then Char.ofNat (c.toNat - 32) else c

/-- `re.sub(r'\s+', ' ', text)`: every maximal run of whitespace characters
becomes a single space. -/
def collapse : List Char → List Char
  | [] => []
  | [c] => if isSpaceChar c then [' '] else [c]
  | c :: d :: rest =>
    if isSpaceChar c && isSpaceChar d then collapse (d :: rest)
    else (if isSpaceChar c then ' ' else c) :: collapse (d :: rest)

/-- Python `str.split()` with no argument: the maximal runs of
non-whitespace characters, in order.  (The `[[c]]` branch below is dead:
when the second character is not whitespace the recursive result starts
with a token, as `wsplit_cons_nonspace` proves.) -/
def wsplit : List Char → List (List Char)
  | [] => []
  | [c] => if isSpaceChar c then [] else [[c]]
  | c :: d :: rest =>
    if isSpaceChar c then wsplit (d :: rest)
    else if isSpaceChar d then [c] :: wsplit rest
    else
      match wsplit (d :: rest) with
      | [] => [[c]]
      | t :: ts => (c :: t) :: ts

/-- The fixed stop-word set of `_normalize_text`. -/
def stopWords : List (List Char) :=
  [['t','h','e'], ['a'], ['a','n'], ['a','n','d'], ['o','r'], ['b','u','t'],
   ['i','n'], ['o','n'], ['a','t'], ['t','o'], ['f','o','r'], ['o','f'],
   ['w','i','t','h'], ['b','y']]

/-- The token pipeline of `_normalize_text`: lowercase, collapse whitespace,
strip non-word non-space characters, split on whitespace, drop stop words. -/
def tokensOf (l : List Char) : List (List Char) :=
  (wsplit ((collapse (l.map toLowerCh)).filter keepChar)).filter
    (fun w => !(stopWords.contains w))

/-- `' '.join(words)` over the surviving tokens. -/
def joinTokens (ws : List (List Char)) : List Char :=
  (List.intersperse [' '] ws).flatten

/-- `_normalize_text` on the character list of a string. -/
def normChars (l : List Char) : List Char :=
  joinTokens (tokensOf l)

/-- `DeduplicationManager._normalize_text` on an actual string.  The
`if not text` guard of the Python code returns `""` for the empty string;
on every other string the pipeline runs. -/
def normalizeText (s : String) : String :=
  if s = "" then "" else String.mk (normChars s.data)

/-! ### `hashlib.md5` (RFC 1321), used by `_generate_job_hash` -/

/-- UTF-8 bytes of a hash-input string.  The strings hashed by
`_generate_job_hash` are outputs of normalization joined with `'|'`, hence
ASCII in this model, where UTF-8 is the identity on code points. -/
def utf8Bytes (s : String) : List Nat :=
  s.data.map Char.toNat

/-- The 64 per-round constants `floor(abs(sin(i+1)) * 2^32)`. -/
def md5K : List Nat :=
  [0xd76aa478, 0xe8c7b756, 0x242070db, 0xc1bdceee,
   0xf57c0faf, 0x4787c62a, 0xa8304613, 0xfd469501,
   0x698098d8, 0x8b44f7af, 0xffff5bb1, 0x895cd7be,
   0x6b901122, 0xfd987193, 0xa679438e, 0x49b40821,
   0xf61e2562, 0xc040b340, 0x265e5a51, 0xe9b6c7aa,
   0xd62f105d, 0x02441453, 0xd8a1e681, 0xe7d3fbc8,
   0x21e1cde6, 0xc33707d6, 0xf4d50d87, 0x455a14ed,
   0xa9e3e905, 0xfcefa3f8, 0x676f02d9, 0x8d2a4c8a,
   0xfffa3942, 0x8771f681, 0x6d9d6122, 0xfde5380c,
   0xa4beea44, 0x4bdecfa9, 0xf6bb4b60, 0xbebfbc70,
   0x289b7ec6, 0xeaa127fa, 0xd4ef3085, 0x04881d05,
   0xd9d4d039, 0xe6db99e5, 0x1fa27cf8, 0xc4ac5665,
   0xf4292244, 0x432aff97, 0xab9423a7, 0xfc93a039,
   0x655b59c3, 0x8f0ccc92, 0xffeff47d, 0x85845dd1,
   0x6fa87e4f, 0xfe2ce6e0, 0xa3014314, 0x4e0811a1,
   0xf7537e82, 0xbd3af235, 0x2ad7d2bb, 0xeb86d391]

/-- The 64 per-round left-rotation amounts. -/
def md5S : List Nat :=
  [7, 12, 17, 22, 7, 12, 17, 22, 7, 12, 17, 22, 7, 12, 17, 22,
   5,  9, 14, 20, 5,  9, 14, 20, 5,  9, 14, 20, 5,  9, 14, 20,
   4, 11, 16, 23, 4, 11, 16, 23, 4, 11, 16, 23, 4, 11, 16, 23,
   6, 10, 15, 21, 6, 10, 15, 21, 6, 10, 15, 21, 6, 10, 15, 21]

/-- 32-bit left rotation of a value below `2^32`. -/
def rotl32 (x n : Nat) : Nat :=
  ((x <<< n) % 2 ^ 32) ||| (x >>> (32 - n))

/-- The round function (F, G, H, I depending on the round index). -/
def md5F (i b c d : Nat) : Nat :=
  if i < 16 then (b &&& c) ||| ((0xffffffff ^^^ b) &&& d)
  else if i < 32 then (d &&& b) ||| ((0xffffffff ^^^ d) &&& c)
  else if i < 48 then b ^^^ c ^^^ d
  else c ^^^ (b ||| (0xffffffff ^^^ d))

/-- The message-word index used in round `i`. -/
def md5G (i : Nat) : Nat :=
  if i < 16 then i
  else if i < 32 then (5 * i + 1) % 16
  else if i < 48 then (3 * i + 5) % 16
  else (7 * i) % 16

/-- Little-endian 32-bit word from four bytes of a chunk. -/
def wordOfChunk (chunk : List Nat) (k : Nat) : Nat :=
  chunk.getD (4 * k) 0 + 256 * chunk.getD (4 * k + 1) 0 +
  256 ^ 2 * chunk.getD (4 * k + 2) 0 + 256 ^ 3 * chunk.getD (4 * k + 3) 0

/-- One of the 64 rounds on the running state `(a, b, c, d)`. -/
def md5Round (msg : List Nat) (st : Nat × Nat × Nat × Nat) (i : Nat) :
    Nat × Nat × Nat × Nat :=
  let a := st.1
  let b := st.2.1
  let c := st.2.2.1
  let d := st.2.2.2
  let f := (md5F i b c d + a + md5K.getD i 0 + wordOfChunk msg (md5G i)) % 2 ^ 32
  (d, (b + rotl32 f (md5S.getD i 0)) % 2 ^ 32, b, c)

/-- Process one 64-byte chunk and add the result into the state. -/
def md5Chunk (st : Nat × Nat × Nat × Nat) (chunk : List Nat) :
    Nat × Nat × Nat × Nat :=
  let r := (List.range 64).foldl (md5Round chunk) st
  ((st.1 + r.1) % 2 ^ 32, (st.2.1 + r.2.1) % 2 ^ 32,
   (st.2.2.1 + r.2.2.1) % 2 ^ 32, (st.2.2.2 + r.2.2.2) % 2 ^ 32)

/-- Split a byte list into 64-byte chunks.  The first argument is fuel that
makes the recursion structural; `l.length` steps always suffice because each
step removes at least one byte from a nonempty list. -/
def chunks64 (fuel : Nat) (l : List Nat) : List (List Nat) :=
  match fuel with
  | 0 => []
  | f + 1 => if l = [] then [] else l.take 64 :: chunks64 f (l.drop 64)

/-- MD5 padding: `0x80`, zeros to 56 mod 64, then the bit length as a
little-endian 64-bit number. -/
def md5pad (msg : List Nat) : List Nat :=
  let L := msg.length
  let zeros := (120 - (L + 1) % 64) % 64
  msg ++ [0x80] ++ List.replicate zeros 0 ++
    (List.range 8).map (fun i => 8 * L % 2 ^ 64 / 256 ^ i % 256)

/-- The four-word MD5 state after absorbing a (padded) message. -/
def md5core (msg : List Nat) : Nat × Nat × Nat × Nat :=
  (chunks64 msg.length msg).foldl md5Chunk
    (0x67452301, 0xefcdab89, 0x98badcfe, 0x10325476)

/-- The lowercase hexadecimal digits. -/
def hexDigits : List Char :=
  ("0123456789abcdef").data

/-- Hex digit of a value (already reduced below 16 at every use). -/
def hexDigit (n : Nat) : Char :=
  hexDigits.getD n '0'

/-- Two hex characters of one byte. -/
def byteToHex (b : Nat) : List Char :=
  [hexDigit (b / 16 % 16), hexDigit (b % 16)]

/-- Little-endian bytes of one 32-bit word. -/
def wordToBytesLE (w : Nat) : List Nat :=
  [w % 256, w / 256 % 256, w / 256 ^ 2 % 256, w / 256 ^ 3 % 256]

/-- The 16 digest bytes. -/
def md5digestBytes (msg : List Nat) : List Nat :=
  let r := md5core (md5pad msg)
  wordToBytesLE r.1 ++ wordToBytesLE r.2.1 ++ wordToBytesLE r.2.2.1 ++
    wordToBytesLE r.2.2.2

/-- `hashlib.md5(s.encode('utf-8')).hexdigest()`. -/
def md5hex (s : String) : String :=
  String.mk ((md5digestBytes (utf8Bytes s)).map byteToHex).flatten

/-! ### `difflib.SequenceMatcher(None, a, b).ratio()`used by `_is_similar_to_existing`

CPython's matcher with `isjunk=None`: `b2j` maps each element of `b` to its
ascending list of positions, minus "popular" elements (autojunk: only when
`len(b) >= 200`, elements occurring more than `len(b)//100 + 1` times).
`bjunk` is empty, so the two junk-extension loops of `find_longest_match`
never fire and the two non-junk extension loops extend over any equal
elements. -/

/-- Autojunk test for an element of `b`. -/
def isPopular (b : List Char) (c : Char) : Bool :=
  decide (200 ≤ b.length) && decide (b.length / 100 + 1 < b.count c)

/-- `b2j`: ascending positions of `c` in `b`, with popular elements purged. -/
def b2jOf (b : List Char) (c : Char) : List Nat :=
  if isPopular b c then [] else (b.enum.filter (fun p => p.2 = c)).map Prod.fst

/-- Lookup in the `j2len` association list, defaulting to 0. -/
def lookNat (m : List (Nat × Nat)) (k : Nat) : Nat :=
  match m.find? (fun p => p.1 = k) with
  | some p => p.2
  | none => 0

/-- Inner loop of `find_longest_match` over one position `j` of `b`:
`k = j2len.get(j-1, 0) + 1`, record it in `newj2len`, update the best match
on strict improvement.  `j2len` is the previous row, fixed for this `i`. -/
def flmInner (i : Nat) (j2len : List (Nat × Nat))
    (st : (Nat × Nat × Nat) × List (Nat × Nat)) (j : Nat) :
    (Nat × Nat × Nat) × List (Nat × Nat) :=
  let k := (if j = 0 then 0 else lookNat j2len (j - 1)) + 1
  let best := if st.1.2.2 < k then (i + 1 - k, j + 1 - k, k) else st.1
  (best, (j, k) :: st.2)

/-- Outer loop body of `find_longest_match` over one position `i` of `a`:
Python's `continue` below `blo` and `break` at `bhi` amount to filtering the
ascending position list. -/
def flmStep (a : List Char) (b2jf : Char → List Nat) (blo bhi : Nat)
    (st : (Nat × Nat × Nat) × List (Nat × Nat)) (i : Nat) :
    (Nat × Nat × Nat) × List (Nat × Nat) :=
  let js := (b2jf (a.getD i '\x00')).filter (fun j => decide (blo ≤ j) && decide (j < bhi))
  js.foldl (flmInner i st.2) (st.1, [])

/-- The dynamic-programming phase of `find_longest_match`: best match
`(besti, bestj, bestsize)` before the extension loops. -/
def flmDP (a : List Char) (b2jf : Char → List Nat) (alo ahi blo bhi : Nat) :
    Nat × Nat × Nat :=
  ((List.range' alo (ahi - alo)).foldl (flmStep a b2jf blo bhi) ((alo, blo, 0), [])).1

/-- First extension loop: grow the best match leftwards while the preceding
elements agree.  Structural recursion on `besti`, which the loop decrements;
`besti = 0` fails the `alo < besti` guard, so that branch just stops. -/
def extLeft (a b : List Char) (alo blo : Nat) :
    Nat → Nat → Nat → Nat × Nat × Nat
  | 0, bj, bs => (0, bj, bs)
  | bi + 1, bj, bs =>
    if decide (alo < bi + 1) && decide (blo < bj) &&
        (a.getD bi '\x00' = b.getD (bj - 1) '\x00' : Bool) then
      extLeft a b alo blo bi (bj - 1) (bs + 1)
    else (bi + 1, bj, bs)

/-- Second extension loop: grow the match rightwards while elements agree.
The first argument is fuel; the loop runs at most `ahi` times because each
step increases `bestsize` under the guard `besti + bestsize < ahi`. -/
def extRight (a b : List Char) (ahi bhi bi bj : Nat) : Nat → Nat → Nat
  | 0, bs => bs
  | f + 1, bs =>
    if decide (bi + bs < ahi) && decide (bj + bs < bhi) &&
        (a.getD (bi + bs) '\x00' = b.getD (bj + bs) '\x00' : Bool) then
      extRight a b ahi bhi bi bj f (bs + 1)
    else bs

/-- `find_longest_match(alo, ahi, blo, bhi)`.  The two junk-extension loops
of CPython are omitted: with `isjunk=None` the junk set is empty and they
never execute. -/
def flm (a b : List Char) (b2jf : Char → List Nat) (alo ahi blo bhi : Nat) :
    Nat × Nat × Nat :=
  let d := flmDP a b2jf alo ahi blo bhi
  let e := extLeft a b alo blo d.1 d.2.1 d.2.2
  (e.1, e.2.1, extRight a b ahi bhi e.1 e.2.1 ahi e.2.2)

/-- Total size of the blocks found by `get_matching_blocks`' recursion: the
longest match of the region, plus the regions to its left and right, queued
under exactly CPython's conditions.  (`ratio` only uses the sum of block
sizes, so the sort/merge of the block list is irrelevant.)  The first
argument is fuel making the recursion structural; each level consumes a
nonempty match from the `a`-interval, so `a.length + 1` always suffices. -/
def matchesTotal (a b : List Char) (b2jf : Char → List Nat) :
    Nat → Nat → Nat → Nat → Nat → Nat
  | 0, _, _, _, _ => 0
  | fuel + 1, alo, ahi, blo, bhi =>
    let m := flm a b b2jf alo ahi blo bhi
    if m.2.2 = 0 then 0
    else
      (if decide (alo < m.1) && decide (blo < m.2.1) then
        matchesTotal a b b2jf fuel alo m.1 blo m.2.1 else 0)
      + m.2.2 +
      (if decide (m.1 + m.2.2 < ahi) && decide (m.2.1 + m.2.2 < bhi) then
        matchesTotal a b b2jf fuel (m.1 + m.2.2) ahi (m.2.1 + m.2.2) bhi else 0)

/-- `sum(triple[-1] for triple in get_matching_blocks())` over whole strings. -/
def smTotal (a b : List Char) : Nat :=
  matchesTotal a b (b2jOf b) (a.length + 1) 0 a.length 0 b.length

/-- `SequenceMatcher(None, a, b).ratio()`, as the exact rational
`2 * M / (len(a) + len(b))` (`1` for two empty sequences, following
`_calculate_ratio`). -/
def ratioQ (a b : List Char) : ℚ :=
  if a.length + b.length = 0 then 1
  else (2 * smTotal a b : ℚ) / ((a.length : ℚ) + (b.length : ℚ))

/-- `ratio()` on Lean strings. -/
def seqRatio (x y : String) : ℚ :=
  ratioQ x.data y.data

/-! ### Job records and `DeduplicationManager`

A job is a Python dict; the four fields the engine reads are modelled
explicitly, `url` and `extra` stand for the arbitrary pass-through fields
that deduplication ignores.  A field value is a Python value: a string, the
absent/None case, or a non-string object (`obj b`, with truthiness `b`):
`_normalize_text` returns `""` for any falsy value and raises
(`AttributeError` on `.lower()`) for a truthy non-string, which the
`try/except` blocks of the manager then catch. -/

inductive PyVal where
  | str (s : String)
  | noneV
  | obj (truthy : Bool)
deriving DecidableEq, Repr

structure Job where
  title : Option PyVal := none
  company : Option PyVal := none
  location : Option PyVal := none
  description : Option PyVal := none
  url : Option PyVal := none
  extra : List (String × PyVal) := []
deriving DecidableEq, Repr

/-- `job.get(field, '')`. -/
def fieldOrEmpty (v : Option PyVal) : PyVal :=
  v.getD (PyVal.str (""))

/-- `_normalize_text` on a Python value: `if not text: return ""` covers
`None`, `""` and falsy objects; a truthy non-string raises. -/
def normalizeV : PyVal → Except Unit String
  | .str s => .ok (normalizeText s)
  | .noneV => .ok ("")
  | .obj truthy => if truthy then .error () else .ok ("")

/-- `DeduplicationManager._generate_job_hash`: md5 hex digest of the four
normalized fields joined with `'|'`, the normalized description truncated
to its first 500 characters. -/
def generateJobHash (j : Job) : Except Unit String := do
  let t ← normalizeV (fieldOrEmpty j.title)
  let c ← normalizeV (fieldOrEmpty j.company)
  let lo ← normalizeV (fieldOrEmpty j.location)
  let de ← normalizeV (fieldOrEmpty j.description)
  .ok (md5hex (t ++ ("|") ++ c ++ ("|") ++ lo ++ ("|") ++ de.take 500))

/-- The `for existing_job in existing_jobs` loop of
`_is_similar_to_existing`: duplicate when both title and company similarity
exceed the threshold, or the title similarity exceeds 0.95. -/
def simLoop (t : ℚ) (jt jc : String) : List Job → Except Unit Bool
  | [] => .ok false
  | e :: rest => do
    let et ← normalizeV (fieldOrEmpty e.title)
    let ec ← normalizeV (fieldOrEmpty e.company)
    if seqRatio jt et > t ∧ seqRatio jc ec > t then .ok true
    else if seqRatio jt et > (19 : ℚ) / 20 then .ok true
    else simLoop t jt jc rest

/-- `DeduplicationManager._is_similar_to_existing`. -/
def isSimilarToExisting (t : ℚ) (job : Job) (existing : List Job) :
    Except Unit Bool := do
  let jt ← normalizeV (fieldOrEmpty job.title)
  let jc ← normalizeV (fieldOrEmpty job.company)
  simLoop t jt jc existing

/-- The `for job in jobs` loop of `remove_duplicates`, threading the
accepted list (`unique_jobs`) and the mutable `seen_hashes`.  The Boolean
records whether the loop ran to completion; `false` means an exception
escaped to the `except` handler, with the state mutations made so far kept
(Python mutates `self.seen_hashes` in place). -/
def removeDupLoop (t : ℚ) : List Job → List Job → List String →
    List Job × List String × Bool
  | [], uniq, seen => (uniq, seen, true)
  | j :: rest, uniq, seen =>
    match generateJobHash j with
    | .error _ => (uniq, seen, false)
    | .ok h =>
      if h ∈ seen then removeDupLoop t rest uniq seen
      else
        match isSimilarToExisting t j uniq with
        | .error _ => (uniq, seen, false)
        | .ok true => removeDupLoop t rest uniq seen
        | .ok false => removeDupLoop t rest (uniq ++ [j]) (h :: seen)

/-- `DeduplicationManager.remove_duplicates`: the result list and the new
`seen_hashes`.  On an internal exception the `except` branch returns the
original input list (the hash-set mutations made before the failure
persist). -/
def remove_duplicates (t : ℚ) (seen : List String) (jobs : List Job) :
    List Job × List String :=
  let r := removeDupLoop t jobs [] seen
  (if r.2.2 then r.1 else jobs, r.2.1)

/-- The records appended to `unique_jobs` during one call (even when the
call later degrades through the `except` branch). -/
def acceptedJobs (t : ℚ) (seen : List String) (jobs : List Job) : List Job :=
  (removeDupLoop t jobs [] seen).1

/-- `DeduplicationManager.reset_hashes`. -/
def reset_hashes (_seen : List String) : List String := []

/-- A sequence of `remove_duplicates` calls on one manager: final
`seen_hashes` and the per-call accepted lists. -/
def runCalls (t : ℚ) : List (List Job) → List String →
    List String × List (List Job)
  | [], seen => (seen, [])
  | js :: rest, seen =>
    let r := runCalls t rest (remove_duplicates t seen js).2
    (r.1, acceptedJobs t seen js :: r.2)

/-- The inner `for j, other_job in enumerate(jobs[i+1:], i+1)` loop of
`get_duplicate_groups`: collect (in order) the later, not yet processed
jobs similar to the seed, marking them processed. -/
def groupInner (t : ℚ) (seed : Job) : List (Nat × Job) → List Nat →
    Except Unit (List (Nat × Job) × List Nat)
  | [], proc => .ok ([], proc)
  | (j, other) :: rest, proc =>
    if j ∈ proc then groupInner t seed rest proc
    else do
      let b ← isSimilarToExisting t other [seed]
      if b then do
        let r ← groupInner t seed rest (j :: proc)
        .ok ((j, other) :: r.1, r.2)
      else groupInner t seed rest proc

/-- The outer `for i, job in enumerate(jobs)` loop of
`get_duplicate_groups`, on the indexed job list: open a group at each
unprocessed job, fill it from the later jobs, keep it only if it has more
than one member. -/
def gdgLoop (t : ℚ) : List (Nat × Job) → List Nat →
    Except Unit (List (List (Nat × Job)))
  | [], _ => .ok []
  | (i, job) :: rest, proc =>
    if i ∈ proc then gdgLoop t rest proc
    else do
      let r ← groupInner t job rest (i :: proc)
      let tailGroups ← gdgLoop t rest r.2
      if 1 < ((i, job) :: r.1).length then .ok (((i, job) :: r.1) :: tailGroups)
      else .ok tailGroups

/-- `DeduplicationManager.get_duplicate_groups`: on any internal exception
the `except` branch returns the empty list. -/
def get_duplicate_groups (t : ℚ) (jobs : List Job) : List (List Job) :=
  match gdgLoop t jobs.enum [] with
  | .ok gs => gs.map (fun g => g.map Prod.snd)
  | .error _ => []

/-! ### Helper transformations used only to state claims -/

/-- Re-case every character of a string. -/
def strCase (f : Char → Char) (s : String) : String :=
  String.mk (s.data.map f)

/-- Remove every punctuation character (everything `re.sub(r'[^\w\s]', '')`
would strip) from a string. -/
def stripPunct (s : String) : String :=
  String.mk (s.data.filter keepChar)

/-- Apply a string transformation to a Python value, leaving non-strings
alone. -/
def pyvalMap (f : String → String) : PyVal → PyVal
  | .str s => .str (f s)
  | v => v

/-- Apply a string transformation to the four fields read by the
fingerprint, leaving the pass-through fields alone. -/
def jobFieldsMap (f : String → String) (j : Job) : Job :=
  { title := j.title.map (pyvalMap f), company := j.company.map (pyvalMap f),
    location := j.location.map (pyvalMap f),
    description := j.description.map (pyvalMap f),
    url := j.url, extra := j.extra }

/-- A concrete well-formed job used by the witnesses. -/
def wJob1 : Job :=
  { title := some (PyVal.str ("Software Intern")),
    company := some (PyVal.str ("Acme Corp")),
    location := some (PyVal.str ("NYC")),
    description := some (PyVal.str ("Great Job")),
    url := some (PyVal.str ("https://a.example")) }

/-- The same job content under a different `url`. -/
def wJob2 : Job :=
  { title := some (PyVal.str ("Software Intern")),
    company := some (PyVal.str ("Acme Corp")),
    location := some (PyVal.str ("NYC")),
    description := some (PyVal.str ("Great Job")),
    url := some (PyVal.str ("https://b.example")) }

/-- A job whose truthy non-string title makes `_normalize_text` raise. -/
def wBadJob : Job :=
  { title := some (PyVal.obj true) }

/-- Seed job of the grouping scenario. -/
def wJobA : Job :=
  { title := some (PyVal.str ("aabb")),
    company := some (PyVal.str ("acme")) }

/-- Similar to the seed via the threshold clause. -/
def wJobB : Job :=
  { title := some (PyVal.str ("aab")),
    company := some (PyVal.str ("acme")) }

/-- Similar to the seed but not to `wJobB`. -/
def wJobC : Job :=
  { title := some (PyVal.str ("abb")),
    company := some (PyVal.str ("acme")) }

/-! ### Character-class lemmas -/

theorem normalizeText_sample1 : normalizeText ("  The  Software, Engineer!! at ACME ") = "software engineer acme" := by decide
theorem normalizeText_sample2 : normalizeText ("a_b-c") = "a_bc" := by decide
theorem normalizeText_sample3 : normalizeText ("THE THE a") = "" := by decide
theorem normalizeText_sample4 : normalizeText ("x\t\ny  z") = "x y z" := by decide


theorem charToNat_ofNat_valid (n : ℕ) (h : n.isValidChar) :
    (Char.ofNat n).toNat = n := by
  unfold Char.ofNat
  rw [dif_pos h]
  rfl

theorem charEq_of_toNat_eq {a b : Char} (h : a.toNat = b.toNat) : a = b :=
  Char.ext (UInt32.ext h)

theorem toNat_toLowerCh (c : Char) :
    (toLowerCh c).toNat =
      if 65 ≤ c.toNat ∧ c.toNat ≤ 90 then c.toNat + 32 else c.toNat := by
  unfold toLowerCh
  split_ifs with h
  · exact charToNat_ofNat_valid _ (Or.inl (by omega))
  · rfl

theorem toNat_toUpperCh (c : Char) :
    (toUpperCh c).toNat =
      if 97 ≤ c.toNat ∧ c.toNat ≤ 122 then c.toNat - 32 else c.toNat := by
  unfold toUpperCh
  split_ifs with h
  · exact charToNat_ofNat_valid _ (Or.inl (by omega))
  · rfl

theorem isSpaceChar_toLowerCh (c : Char) :
    isSpaceChar (toLowerCh c) = isSpaceChar c := by
  unfold isSpaceChar
  rw [decide_eq_decide, toNat_toLowerCh]
  split_ifs with h <;> omega

theorem isWordChar_toLowerCh (c : Char) :
    isWordChar (toLowerCh c) = isWordChar c := by
  unfold isWordChar
  rw [decide_eq_decide, toNat_toLowerCh]
  split_ifs with h <;> omega

theorem isSpaceChar_toUpperCh (c : Char) :
    isSpaceChar (toUpperCh c) = isSpaceChar c := by
  unfold isSpaceChar
  rw [decide_eq_decide, toNat_toUpperCh]
  split_ifs with h <;> omega

theorem toLowerCh_idem (c : Char) : toLowerCh (toLowerCh c) = toLowerCh c := by
  apply charEq_of_toNat_eq
  rw [toNat_toLowerCh, toNat_toLowerCh]
  split_ifs <;> omega

theorem toLowerCh_toUpperCh (c : Char) :
    toLowerCh (toUpperCh c) = toLowerCh c := by
  apply charEq_of_toNat_eq
  rw [toNat_toLowerCh, toNat_toLowerCh, toNat_toUpperCh]
  split_ifs <;> omega

theorem not_word_of_space {c : Char} (h : isSpaceChar c = true) :
    isWordChar c = false := by
  unfold isSpaceChar at h
  unfold isWordChar
  rw [decide_eq_true_eq] at h
  simp only [decide_eq_false_iff_not]
  omega

theorem not_space_of_word {c : Char} (h : isWordChar c = true) :
    isSpaceChar c = false := by
  unfold isWordChar at h
  unfold isSpaceChar
  rw [decide_eq_true_eq] at h
  simp only [decide_eq_false_iff_not]
  omega

theorem toLowerCh_fix_of_not_upper {c : Char}
    (h2 : ¬ (65 ≤ c.toNat ∧ c.toNat ≤ 90)) :
    toLowerCh c = c := by
  unfold toLowerCh
  rw [if_neg h2]

/-! ### Tokenization lemmas -/

theorem length_dropWhile_le (p : Char → Bool) (l : List Char) :
    (l.dropWhile p).length ≤ l.length := by
  induction l with
  | nil => simp
  | cons c r ih =>
    rw [List.dropWhile_cons]
    split_ifs
    · exact le_trans ih (Nat.le_succ _)
    · exact le_refl _

theorem wsplit_cons_space {c : Char} (h : isSpaceChar c = true)
    (l : List Char) : wsplit (c :: l) = wsplit l := by
  cases l with
  | nil => simp [wsplit, h]
  | cons d r => simp [wsplit, h]

theorem wsplit_cons_nonspace :
    ∀ (l : List Char) {c : Char}, isSpaceChar c = false →
      wsplit (c :: l) =
        (c :: l.takeWhile (fun d => !isSpaceChar d)) ::
          wsplit (l.dropWhile (fun d => !isSpaceChar d)) := by
  intro l
  induction l with
  | nil => intro c h; simp [wsplit, h]
  | cons d r ih =>
    intro c h
    by_cases hd : isSpaceChar d
    · rw [List.takeWhile_cons, List.dropWhile_cons]
      simp only [hd, Bool.not_true, if_neg, reduceIte]
      show wsplit (c :: d :: r) = [c] :: wsplit (d :: r)
      rw [wsplit_cons_space hd r]
      simp [wsplit, h, hd]
    · rw [List.takeWhile_cons, List.dropWhile_cons]
      have hd' : isSpaceChar d = false := by simpa using hd
      simp only [hd', Bool.not_false, reduceIte]
      show wsplit (c :: d :: r) =
        (c :: d :: r.takeWhile (fun d => !isSpaceChar d)) ::
          wsplit (r.dropWhile (fun d => !isSpaceChar d))
      have hrec := ih hd'
      simp only [wsplit, h, hd', Bool.false_eq_true, if_false, reduceIte, hrec]

theorem takeWhile_append_all {α} (p : α → Bool) (w rest : List α)
    (h : ∀ c ∈ w, p c = true) :
    (w ++ rest).takeWhile p = w ++ rest.takeWhile p := by
  induction w with
  | nil => simp
  | cons c w' ih =>
    rw [List.cons_append, List.takeWhile_cons, if_pos (h c (by simp))]
    rw [ih (fun c hc => h c (by simp [hc])), List.cons_append]

theorem dropWhile_append_all {α} (p : α → Bool) (w rest : List α)
    (h : ∀ c ∈ w, p c = true) :
    (w ++ rest).dropWhile p = rest.dropWhile p := by
  induction w with
  | nil => simp
  | cons c w' ih =>
    rw [List.cons_append, List.dropWhile_cons, if_pos (h c (by simp))]
    exact ih (fun c hc => h c (by simp [hc]))

theorem takeWhile_filter_keep (l : List Char) :
    (l.filter keepChar).takeWhile (fun d => !isSpaceChar d) =
      (l.takeWhile (fun d => !isSpaceChar d)).filter isWordChar := by
  induction l with
  | nil => simp
  | cons c r ih =>
    by_cases hs : isSpaceChar c
    · have hk : keepChar c = true := by simp [keepChar, hs]
      rw [List.filter_cons_of_pos hk, List.takeWhile_cons, List.takeWhile_cons]
      simp [hs]
    · have hs' : isSpaceChar c = false := by simpa using hs
      by_cases hw : isWordChar c
      · have hk : keepChar c = true := by simp [keepChar, hw]
        rw [List.filter_cons_of_pos hk, List.takeWhile_cons, List.takeWhile_cons]
        simp only [hs', Bool.not_false, reduceIte, ih]
        rw [List.filter_cons_of_pos hw]
      · have hk : keepChar c = false := by simp [keepChar, hs', hw]
        rw [List.filter_cons_of_neg (by simp [hk]), List.takeWhile_cons]
        simp only [hs', Bool.not_false, reduceIte, ih]
        rw [List.filter_cons_of_neg (by simp [hw])]

theorem dropWhile_filter_keep (l : List Char) :
    (l.filter keepChar).dropWhile (fun d => !isSpaceChar d) =
      (l.dropWhile (fun d => !isSpaceChar d)).filter keepChar := by
  induction l with
  | nil => simp
  | cons c r ih =>
    by_cases hs : isSpaceChar c
    · have hk : keepChar c = true := by simp [keepChar, hs]
      rw [List.filter_cons_of_pos hk, List.dropWhile_cons, List.dropWhile_cons]
      simp only [hs, Bool.not_true, Bool.false_eq_true, if_false, reduceIte]
      rw [List.filter_cons_of_pos hk]
    · have hs' : isSpaceChar c = false := by simpa using hs
      by_cases hw : isWordChar c
      · have hk : keepChar c = true := by simp [keepChar, hw]
        rw [List.filter_cons_of_pos hk, List.dropWhile_cons, List.dropWhile_cons]
        simp only [hs', Bool.not_false, reduceIte]
        exact ih
      · have hk : keepChar c = false := by simp [keepChar, hs', hw]
        rw [List.filter_cons_of_neg (by simp [hk]), List.dropWhile_cons]
        simp only [hs', Bool.not_false, reduceIte]
        exact ih

theorem takeWhile_map_spacePres {f : Char → Char}
    (hf : ∀ c, isSpaceChar (f c) = isSpaceChar c) (l : List Char) :
    (l.map f).takeWhile (fun d => !isSpaceChar d) =
      (l.takeWhile (fun d => !isSpaceChar d)).map f := by
  induction l with
  | nil => simp
  | cons c r ih =>
    rw [List.map_cons, List.takeWhile_cons, List.takeWhile_cons, hf c]
    by_cases hs : isSpaceChar c
    · simp [hs]
    · have hs' : isSpaceChar c = false := by simpa using hs
      simp only [hs', Bool.not_false, reduceIte, ih, List.map_cons]

theorem dropWhile_map_spacePres {f : Char → Char}
    (hf : ∀ c, isSpaceChar (f c) = isSpaceChar c) (l : List Char) :
    (l.map f).dropWhile (fun d => !isSpaceChar d) =
      (l.dropWhile (fun d => !isSpaceChar d)).map f := by
  induction l with
  | nil => simp
  | cons c r ih =>
    rw [List.map_cons, List.dropWhile_cons, List.dropWhile_cons, hf c]
    by_cases hs : isSpaceChar c
    · simp [hs]
    · have hs' : isSpaceChar c = false := by simpa using hs
      simp only [hs', Bool.not_false, reduceIte, ih, List.map_cons]

theorem wsplit_append_token (w rest : List Char) (hw : w ≠ [])
    (hns : ∀ c ∈ w, isSpaceChar c = false)
    (hrest : rest = [] ∨ ∃ d X, rest = d :: X ∧ isSpaceChar d = true) :
    wsplit (w ++ rest) = w :: wsplit rest := by
  cases w with
  | nil => exact absurd rfl hw
  | cons c w' =>
    rw [List.cons_append,
      wsplit_cons_nonspace (w' ++ rest) (hns c (by simp)),
      takeWhile_append_all _ w' rest
        (fun x hx => by simp [hns x (by simp [hx])]),
      dropWhile_append_all _ w' rest
        (fun x hx => by simp [hns x (by simp [hx])])]
    rcases hrest with h | ⟨d, X, rfl, hd⟩
    · subst h
      simp
    · rw [List.takeWhile_cons, List.dropWhile_cons]
      simp [hd]

theorem wsplit_token (w : List Char) (hw : w ≠ [])
    (hns : ∀ c ∈ w, isSpaceChar c = false) : wsplit w = [w] := by
  have := wsplit_append_token w [] hw hns (Or.inl rfl)
  simpa using this

theorem takeWhile_collapse (l : List Char) :
    (collapse l).takeWhile (fun d => !isSpaceChar d) =
      l.takeWhile (fun d => !isSpaceChar d) := by
  induction l using collapse.induct with
  | case1 => rfl
  | case2 c hc =>
    simp only [collapse, hc, reduceIte, List.takeWhile_cons]
    simp [hc, show isSpaceChar ' ' = true by decide]
  | case3 c hc =>
    simp only [Bool.not_eq_true] at hc
    simp [collapse, hc]
  | case4 c d rest h ih =>
    rw [Bool.and_eq_true] at h
    simp only [collapse, h.1, h.2, Bool.and_self, reduceIte, ih]
    rw [List.takeWhile_cons]
    simp [h.1, h.2, List.takeWhile_cons]
  | case5 c d rest h ih =>
    rw [Bool.and_eq_true, not_and_or] at h
    by_cases hc : isSpaceChar c
    · have hd : isSpaceChar d = false := by
        rcases h with h | h
        · exact absurd hc (by simpa using h)
        · simpa using h
      show (collapse (c :: d :: rest)).takeWhile _ = _
      rw [show collapse (c :: d :: rest) = ' ' :: collapse (d :: rest) by
        simp [collapse, hc, hd]]
      rw [List.takeWhile_cons, List.takeWhile_cons]
      simp [hc, show isSpaceChar ' ' = true by decide]
    · have hc' : isSpaceChar c = false := by simpa using hc
      rw [show collapse (c :: d :: rest) = c :: collapse (d :: rest) by
        simp [collapse, hc']]
      rw [List.takeWhile_cons, List.takeWhile_cons]
      simp only [hc', Bool.not_false, reduceIte, ih]

theorem dropWhile_collapse (l : List Char) :
    (collapse l).dropWhile (fun d => !isSpaceChar d) =
      collapse (l.dropWhile (fun d => !isSpaceChar d)) := by
  induction l using collapse.induct with
  | case1 => rfl
  | case2 c hc =>
    simp only [collapse, hc, reduceIte, List.dropWhile_cons]
    simp [hc, collapse, show isSpaceChar ' ' = true by decide]
  | case3 c hc =>
    simp only [Bool.not_eq_true] at hc
    simp [collapse, hc]
  | case4 c d rest h ih =>
    rw [Bool.and_eq_true] at h
    rw [show collapse (c :: d :: rest) = collapse (d :: rest) by
      simp [collapse, h.1, h.2]]
    rw [ih]
    simp [List.dropWhile_cons, h.1, h.2, collapse]
  | case5 c d rest h ih =>
    rw [Bool.and_eq_true, not_and_or] at h
    by_cases hc : isSpaceChar c
    · have hd : isSpaceChar d = false := by
        rcases h with h | h
        · exact absurd hc (by simpa using h)
        · simpa using h
      rw [show collapse (c :: d :: rest) = ' ' :: collapse (d :: rest) by
        simp [collapse, hc, hd]]
      rw [List.dropWhile_cons, List.dropWhile_cons]
      simp only [show isSpaceChar ' ' = true by decide, hc, Bool.not_true,
        Bool.false_eq_true, if_false, reduceIte]
      rw [show collapse (c :: d :: rest) = ' ' :: collapse (d :: rest) by
        simp [collapse, hc, hd]]
    · have hc' : isSpaceChar c = false := by simpa using hc
      rw [show collapse (c :: d :: rest) = c :: collapse (d :: rest) by
        simp [collapse, hc']]
      rw [List.dropWhile_cons, List.dropWhile_cons]
      simp only [hc', Bool.not_false, reduceIte, ih]

theorem wsplit_collapse (l : List Char) : wsplit (collapse l) = wsplit l := by
  suffices h : ∀ (n : ℕ) (l : List Char), l.length ≤ n →
      wsplit (collapse l) = wsplit l from h l.length l le_rfl
  intro n
  induction n with
  | zero =>
    intro l hl
    rw [List.length_eq_zero.mp (Nat.le_zero.mp hl)]
    rfl
  | succ n ih =>
    intro l hl
    rcases l with _ | ⟨c, _ | ⟨d, rest⟩⟩
    · rfl
    · by_cases hc : isSpaceChar c
      · rw [show collapse [c] = [' '] by simp [collapse, hc]]
        simp [wsplit, hc, show isSpaceChar ' ' = true by decide]
      · have hc' : isSpaceChar c = false := by simpa using hc
        rw [show collapse [c] = [c] by simp [collapse, hc']]
    · have hrest : (d :: rest).length ≤ n := by
        simp only [List.length_cons] at hl ⊢
        omega
      by_cases hc : isSpaceChar c
      · by_cases hd : isSpaceChar d
        · rw [show collapse (c :: d :: rest) = collapse (d :: rest) by
            simp [collapse, hc, hd]]
          rw [ih (d :: rest) hrest, wsplit_cons_space hc]
        · have hd' : isSpaceChar d = false := by simpa using hd
          rw [show collapse (c :: d :: rest) = ' ' :: collapse (d :: rest) by
            simp [collapse, hc, hd']]
          rw [wsplit_cons_space (by decide) (collapse (d :: rest))]
          rw [ih (d :: rest) hrest, wsplit_cons_space hc]
      · have hc' : isSpaceChar c = false := by simpa using hc
        rw [show collapse (c :: d :: rest) = c :: collapse (d :: rest) by
          simp [collapse, hc']]
        rw [wsplit_cons_nonspace (collapse (d :: rest)) hc',
          wsplit_cons_nonspace (d :: rest) hc',
          takeWhile_collapse, dropWhile_collapse]
        congr 1
        exact ih ((d :: rest).dropWhile (fun d => !isSpaceChar d))
          (le_trans (length_dropWhile_le _ _) hrest)

theorem dropWhile_head_false {α} (p : α → Bool) :
    ∀ (l : List α) (d : α) (X : List α), l.dropWhile p = d :: X → p d = false := by
  intro l
  induction l with
  | nil => intro d X h; simp at h
  | cons c r ih =>
    intro d X h
    rw [List.dropWhile_cons] at h
    by_cases hc : p c
    · rw [if_pos hc] at h
      exact ih d X h
    · rw [if_neg hc] at h
      obtain ⟨rfl, rfl⟩ := List.cons.injEq .. ▸ h
      simpa using hc

theorem wsplit_filter_keep (l : List Char) :
    wsplit (l.filter keepChar) =
      ((wsplit l).map (List.filter isWordChar)).filter (fun w => !w.isEmpty) := by
  suffices h : ∀ (n : ℕ) (l : List Char), l.length ≤ n →
      wsplit (l.filter keepChar) =
        ((wsplit l).map (List.filter isWordChar)).filter (fun w => !w.isEmpty)
    from h l.length l le_rfl
  intro n
  induction n with
  | zero =>
    intro l hl
    rw [List.length_eq_zero.mp (Nat.le_zero.mp hl)]
    rfl
  | succ n ih =>
    intro l hl
    rcases l with _ | ⟨c, r⟩
    · rfl
    · have hr : r.length ≤ n := by
        simp only [List.length_cons] at hl
        omega
      by_cases hs : isSpaceChar c
      · have hk : keepChar c = true := by simp [keepChar, hs]
        rw [List.filter_cons_of_pos hk, wsplit_cons_space hs,
          wsplit_cons_space hs]
        exact ih r hr
      · have hs' : isSpaceChar c = false := by simpa using hs
        by_cases hw : isWordChar c
        · have hk : keepChar c = true := by simp [keepChar, hw]
          rw [List.filter_cons_of_pos hk,
            wsplit_cons_nonspace (r.filter keepChar) hs',
            takeWhile_filter_keep, dropWhile_filter_keep,
            ih (r.dropWhile (fun d => !isSpaceChar d))
              (le_trans (length_dropWhile_le _ _) hr),
            wsplit_cons_nonspace r hs', List.map_cons,
            List.filter_cons_of_pos hw]
          rw [List.filter_cons_of_pos (by simp)]
        · have hk : keepChar c = false := by simp [keepChar, hs', hw]
          have hsplit : r.filter keepChar =
              (r.takeWhile (fun d => !isSpaceChar d)).filter isWordChar ++
                (r.dropWhile (fun d => !isSpaceChar d)).filter keepChar := by
            conv_lhs => rw [← List.takeWhile_append_dropWhile
              (fun d => !isSpaceChar d) r]
            rw [List.filter_append]
            congr 1
            apply List.filter_congr
            intro x hx
            have hxs : isSpaceChar x = false := by
              simpa using List.mem_takeWhile_imp hx
            simp [keepChar, hxs]
          have hD := ih (r.dropWhile (fun d => !isSpaceChar d))
            (le_trans (length_dropWhile_le _ _) hr)
          have hLHS : (c :: r).filter keepChar = r.filter keepChar := by
            simp [List.filter_cons, hk]
          have hhead : List.filter isWordChar
              (c :: r.takeWhile (fun d => !isSpaceChar d)) =
              List.filter isWordChar (r.takeWhile (fun d => !isSpaceChar d)) := by
            simp [List.filter_cons, hw]
          rw [hLHS, hsplit, wsplit_cons_nonspace r hs', List.map_cons, hhead]
          by_cases hW :
              (r.takeWhile (fun d => !isSpaceChar d)).filter isWordChar = []
          · rw [hW, List.nil_append, hD]
            simp
          · have hrest :
                (r.dropWhile (fun d => !isSpaceChar d)).filter keepChar = [] ∨
                ∃ dd XX,
                  (r.dropWhile (fun d => !isSpaceChar d)).filter keepChar =
                    dd :: XX ∧ isSpaceChar dd = true := by
              rcases hDD : r.dropWhile (fun d => !isSpaceChar d) with _ | ⟨d, X⟩
              · left
                rfl
              · have hd : isSpaceChar d = true := by
                  simpa using dropWhile_head_false _ r d X hDD
                right
                exact ⟨d, X.filter keepChar,
                  by rw [List.filter_cons_of_pos (by simp [keepChar, hd])], hd⟩
            rw [wsplit_append_token _ _ hW
              (fun x hx => not_space_of_word (List.mem_filter.mp hx).2) hrest,
              hD, List.filter_cons_of_pos (by simp [hW])]

theorem wsplit_map_spacePres {f : Char → Char}
    (hf : ∀ c, isSpaceChar (f c) = isSpaceChar c) (l : List Char) :
    wsplit (l.map f) = (wsplit l).map (List.map f) := by
  suffices h : ∀ (n : ℕ) (l : List Char), l.length ≤ n →
      wsplit (l.map f) = (wsplit l).map (List.map f)
    from h l.length l le_rfl
  intro n
  induction n with
  | zero =>
    intro l hl
    rw [List.length_eq_zero.mp (Nat.le_zero.mp hl)]
    rfl
  | succ n ih =>
    intro l hl
    rcases l with _ | ⟨c, r⟩
    · rfl
    · have hr : r.length ≤ n := by
        simp only [List.length_cons] at hl
        omega
      by_cases hs : isSpaceChar c
      · rw [List.map_cons, wsplit_cons_space (by rw [hf c]; exact hs),
          wsplit_cons_space hs]
        exact ih r hr
      · have hs' : isSpaceChar c = false := by simpa using hs
        rw [List.map_cons, wsplit_cons_nonspace (r.map f) (by rw [hf c]; exact hs'),
          takeWhile_map_spacePres hf, dropWhile_map_spacePres hf,
          ih (r.dropWhile (fun d => !isSpaceChar d))
            (le_trans (length_dropWhile_le _ _) hr),
          wsplit_cons_nonspace r hs', List.map_cons, List.map_cons]

theorem wsplit_joinTokens :
    ∀ ws : List (List Char),
      (∀ w ∈ ws, w ≠ [] ∧ ∀ c ∈ w, isSpaceChar c = false) →
      wsplit (joinTokens ws) = ws := by
  intro ws
  induction ws with
  | nil => intro _; rfl
  | cons w ws' ih =>
    intro h
    rcases ws' with _ | ⟨v, vs⟩
    · show wsplit (joinTokens [w]) = [w]
      rw [show joinTokens [w] = w by simp [joinTokens, List.intersperse]]
      exact wsplit_token w (h w (by simp)).1 (h w (by simp)).2
    · rw [show joinTokens (w :: v :: vs) = w ++ ' ' :: joinTokens (v :: vs) by
        simp [joinTokens, List.intersperse]]
      rw [wsplit_append_token w _ (h w (by simp)).1 (h w (by simp)).2
        (Or.inr ⟨' ', joinTokens (v :: vs), rfl, by decide⟩)]
      rw [wsplit_cons_space (by decide)]
      rw [ih (fun x hx => h x (by simp [hx]))]

/-- Canonical form of the `_normalize_text` token pipeline: tokens of the
raw string, each lowercased and stripped of punctuation, with empty tokens
and stop words removed. -/
theorem tokensOf_canonical (l : List Char) :
    tokensOf l =
      (((wsplit l).map (fun w => (w.map toLowerCh).filter isWordChar)).filter
        (fun w => !w.isEmpty)).filter (fun w => !(stopWords.contains w)) := by
  unfold tokensOf
  rw [wsplit_filter_keep (collapse (l.map toLowerCh)), wsplit_collapse,
    wsplit_map_spacePres isSpaceChar_toLowerCh, List.map_map]
  rfl

theorem tokensOf_mem_props {l : List Char} {w : List Char}
    (h : w ∈ tokensOf l) :
    w ≠ [] ∧ stopWords.contains w = false ∧
      ∀ c ∈ w, isWordChar c = true ∧ toLowerCh c = c := by
  rw [tokensOf_canonical] at h
  obtain ⟨h1, hstop⟩ := List.mem_filter.mp h
  obtain ⟨h2, hne⟩ := List.mem_filter.mp h1
  obtain ⟨w0, _, rfl⟩ := List.mem_map.mp h2
  refine ⟨by simpa [List.isEmpty_iff] using hne, by simpa using hstop, ?_⟩
  intro c hc
  obtain ⟨hcm, hcw⟩ := List.mem_filter.mp hc
  obtain ⟨c0, _, rfl⟩ := List.mem_map.mp hcm
  exact ⟨hcw, toLowerCh_idem c0⟩

theorem tokensOf_joinTokens (ts : List (List Char))
    (h : ∀ w ∈ ts, w ≠ [] ∧ stopWords.contains w = false ∧
      ∀ c ∈ w, isWordChar c = true ∧ toLowerCh c = c) :
    tokensOf (joinTokens ts) = ts := by
  rw [tokensOf_canonical,
    wsplit_joinTokens ts (fun w hw =>
      ⟨(h w hw).1, fun c hc => not_space_of_word ((h w hw).2.2 c hc).1⟩)]
  have hmap : List.map (fun w => (w.map toLowerCh).filter isWordChar) ts =
      List.map id ts := by
    apply List.map_congr_left
    intro w hw
    have hfix : ∀ c ∈ w, toLowerCh c = id c :=
      fun c hc => ((h w hw).2.2 c hc).2
    have h1 : w.map toLowerCh = w := by
      rw [List.map_congr_left hfix, List.map_id]
    rw [h1]
    show w.filter isWordChar = id w
    exact List.filter_eq_self.mpr (fun c hc => ((h w hw).2.2 c hc).1)
  rw [hmap, List.map_id,
    List.filter_eq_self.mpr (fun w hw => by
      simpa using (h w (List.mem_filter.mp hw).1).2.1),
    List.filter_eq_self.mpr (fun w hw => by
      simp [List.isEmpty_iff, (h w hw).1])]

theorem normChars_idem (l : List Char) :
    normChars (normChars l) = normChars l := by
  show joinTokens (tokensOf (joinTokens (tokensOf l))) = joinTokens (tokensOf l)
  rw [tokensOf_joinTokens (tokensOf l) (fun w hw =>
    ⟨(tokensOf_mem_props hw).1, (tokensOf_mem_props hw).2.1,
      (tokensOf_mem_props hw).2.2⟩)]

theorem map_toLowerCh_filter_word (w : List Char) :
    (w.filter isWordChar).map toLowerCh =
      (w.map toLowerCh).filter isWordChar := by
  induction w with
  | nil => rfl
  | cons c r ih =>
    rw [List.map_cons, List.filter_cons, List.filter_cons,
      isWordChar_toLowerCh c]
    by_cases hw : isWordChar c
    · rw [if_pos hw, if_pos hw, List.map_cons, ih]
    · rw [if_neg hw, if_neg hw, ih]

theorem clean_filter_word (w : List Char) :
    ((w.filter isWordChar).map toLowerCh).filter isWordChar =
      (w.map toLowerCh).filter isWordChar := by
  rw [map_toLowerCh_filter_word, List.filter_filter]
  apply List.filter_congr
  intro x _
  simp

theorem clean_nil_of_filter_word_nil {w : List Char}
    (h : w.filter isWordChar = []) :
    (w.map toLowerCh).filter isWordChar = [] := by
  rw [List.filter_eq_nil_iff] at h ⊢
  intro c hc
  obtain ⟨c0, hc0, rfl⟩ := List.mem_map.mp hc
  rw [isWordChar_toLowerCh]
  exact h c0 hc0

theorem map_clean_filter_aux (X : List (List Char)) :
    ((((X.map (List.filter isWordChar)).filter (fun w => !w.isEmpty)).map
      (fun w => (w.map toLowerCh).filter isWordChar)).filter
        (fun w => !w.isEmpty)) =
      ((X.map (fun w => (w.map toLowerCh).filter isWordChar)).filter
        (fun w => !w.isEmpty)) := by
  induction X with
  | nil => rfl
  | cons w X ih =>
    rw [List.map_cons, List.map_cons, List.filter_cons, List.filter_cons]
    by_cases hW : w.filter isWordChar = []
    · rw [if_neg (by simp [hW]), ih,
        if_neg (by simp [List.isEmpty_iff, clean_nil_of_filter_word_nil hW])]
    · rw [if_pos (by simp [List.isEmpty_iff, hW]), List.map_cons,
        List.filter_cons, clean_filter_word, ih]

theorem tokensOf_filter_keep (l : List Char) :
    tokensOf (l.filter keepChar) = tokensOf l := by
  rw [tokensOf_canonical, tokensOf_canonical, wsplit_filter_keep l,
    map_clean_filter_aux (wsplit l)]

theorem tokensOf_map_upper (l : List Char) :
    tokensOf (l.map toUpperCh) = tokensOf l := by
  rw [tokensOf_canonical, tokensOf_canonical,
    wsplit_map_spacePres isSpaceChar_toUpperCh, List.map_map]
  have hfun : ∀ w ∈ wsplit l,
      ((fun w => (w.map toLowerCh).filter isWordChar) ∘ List.map toUpperCh) w =
        (w.map toLowerCh).filter isWordChar := by
    intro w _
    show ((w.map toUpperCh).map toLowerCh).filter isWordChar = _
    rw [List.map_map,
      List.map_congr_left (fun c _ => show (toLowerCh ∘ toUpperCh) c = toLowerCh c
        from toLowerCh_toUpperCh c)]
  rw [List.map_congr_left hfun]

theorem normChars_filter_keep (l : List Char) :
    normChars (l.filter keepChar) = normChars l := by
  unfold normChars
  rw [tokensOf_filter_keep]

theorem normChars_map_upper (l : List Char) :
    normChars (l.map toUpperCh) = normChars l := by
  unfold normChars
  rw [tokensOf_map_upper]

theorem normalizeText_eq_mk (s : String) :
    normalizeText s = String.mk (normChars s.data) := by
  unfold normalizeText
  by_cases h : s = ""
  · subst h
    rfl
  · rw [if_neg h]

theorem normalizeText_idem (s : String) :
    normalizeText (normalizeText s) = normalizeText s := by
  rw [normalizeText_eq_mk s, normalizeText_eq_mk (String.mk (normChars s.data))]
  show String.mk (normChars (normChars s.data)) = _
  rw [normChars_idem]

theorem normalizeText_stripPunct (s : String) :
    normalizeText (stripPunct s) = normalizeText s := by
  rw [normalizeText_eq_mk, normalizeText_eq_mk]
  show String.mk (normChars (s.data.filter keepChar)) = _
  rw [normChars_filter_keep]

theorem normalizeText_upperCase (s : String) :
    normalizeText (strCase toUpperCh s) = normalizeText s := by
  rw [normalizeText_eq_mk, normalizeText_eq_mk]
  show String.mk (normChars (s.data.map toUpperCh)) = _
  rw [normChars_map_upper]

/-! ### Digest-shape lemmas for `md5hex` -/

theorem hexDigit_mem (n : ℕ) : hexDigit n ∈ hexDigits := by
  show (hexDigits.get? n).getD '0' ∈ hexDigits
  cases h : hexDigits.get? n with
  | none => decide
  | some c =>
    have := List.get?_mem h
    simpa using this

theorem flatten_map_byteToHex_length (L : List Nat) :
    ((L.map byteToHex).flatten).length = 2 * L.length := by
  induction L with
  | nil => rfl
  | cons b L ih =>
    rw [List.map_cons, List.flatten_cons, List.length_append, ih,
      List.length_cons]
    show 2 + 2 * L.length = 2 * (L.length + 1)
    omega

theorem md5digestBytes_length (msg : List Nat) :
    (md5digestBytes msg).length = 16 := by
  unfold md5digestBytes wordToBytesLE
  simp

theorem md5hex_length (s : String) : (md5hex s).length = 32 := by
  show (String.mk ((md5digestBytes (utf8Bytes s)).map byteToHex).flatten).length = 32
  rw [show ∀ l : List Char, (String.mk l).length = l.length from fun l => rfl,
    flatten_map_byteToHex_length, md5digestBytes_length]

theorem md5hex_chars (s : String) : ∀ c ∈ (md5hex s).data, c ∈ hexDigits := by
  intro c hc
  have hc' : c ∈ ((md5digestBytes (utf8Bytes s)).map byteToHex).flatten := hc
  obtain ⟨y, hy, hcy⟩ := List.mem_flatten.mp hc'
  obtain ⟨b, _, rfl⟩ := List.mem_map.mp hy
  simp only [byteToHex, List.mem_cons, List.not_mem_nil, or_false] at hcy
  rcases hcy with rfl | rfl
  · exact hexDigit_mem _
  · exact hexDigit_mem _

/-! ### Fingerprint invariance lemmas -/

theorem normalizeV_fieldMap {f : String → String}
    (hf : ∀ s, normalizeText (f s) = normalizeText s) (v : Option PyVal) :
    normalizeV (fieldOrEmpty (v.map (pyvalMap f))) =
      normalizeV (fieldOrEmpty v) := by
  cases v with
  | none =>
    show normalizeV (PyVal.str ("")) = normalizeV (PyVal.str (""))
    rfl
  | some pv =>
    cases pv with
    | str s =>
      show Except.ok (normalizeText (f s)) = Except.ok (normalizeText s)
      rw [hf s]
    | noneV => rfl
    | obj b => rfl

theorem generateJobHash_fieldsMap {f : String → String}
    (hf : ∀ s, normalizeText (f s) = normalizeText s) (j : Job) :
    generateJobHash (jobFieldsMap f j) = generateJobHash j := by
  unfold generateJobHash
  show ((normalizeV (fieldOrEmpty (j.title.map (pyvalMap f)))).bind _) = _
  rw [normalizeV_fieldMap hf j.title]
  cases normalizeV (fieldOrEmpty j.title) with
  | error e => rfl
  | ok t =>
    show ((normalizeV (fieldOrEmpty (j.company.map (pyvalMap f)))).bind _) = _
    rw [normalizeV_fieldMap hf j.company]
    cases normalizeV (fieldOrEmpty j.company) with
    | error e => rfl
    | ok c =>
      show ((normalizeV (fieldOrEmpty (j.location.map (pyvalMap f)))).bind _) = _
      rw [normalizeV_fieldMap hf j.location]
      cases normalizeV (fieldOrEmpty j.location) with
      | error e => rfl
      | ok lo =>
        show ((normalizeV (fieldOrEmpty (j.description.map (pyvalMap f)))).bind _) = _
        rw [normalizeV_fieldMap hf j.description]
        rfl

/-! ### `remove_duplicates` loop invariants -/

theorem removeDupLoop_spec (t : ℚ) :
    ∀ (jobs uniq : List Job) (seen : List String),
      ∃ u' : List Job,
        (removeDupLoop t jobs uniq seen).1 = uniq ++ u' ∧
        List.Sublist u' jobs ∧
        (∀ j ∈ u', ∃ hh, generateJobHash j = .ok hh) ∧
        (∀ hh, hh ∈ (removeDupLoop t jobs uniq seen).2.1 ↔
          hh ∈ seen ∨ ∃ j ∈ u', generateJobHash j = .ok hh) := by
  intro jobs
  induction jobs with
  | nil =>
    intro uniq seen
    refine ⟨[], by simp [removeDupLoop], List.Sublist.refl _, by simp, ?_⟩
    intro hh
    simp [removeDupLoop]
  | cons j rest ih =>
    intro uniq seen
    show ∃ u', (removeDupLoop t (j :: rest) uniq seen).1 = _ ∧ _
    rw [removeDupLoop]
    cases hg : generateJobHash j with
    | error e =>
      refine ⟨[], by simp, List.nil_sublist _, by simp, ?_⟩
      intro hh
      simp
    | ok h0 =>
      dsimp only
      by_cases hmem : h0 ∈ seen
      · rw [if_pos hmem]
        obtain ⟨u', h1, h2, h3, h4⟩ := ih uniq seen
        exact ⟨u', h1, List.Sublist.cons _ h2, h3, h4⟩
      · rw [if_neg hmem]
        cases hsim : isSimilarToExisting t j uniq with
        | error e =>
          refine ⟨[], by simp, List.nil_sublist _, by simp, ?_⟩
          intro hh
          simp
        | ok b =>
          cases b with
          | true =>
            obtain ⟨u', h1, h2, h3, h4⟩ := ih uniq seen
            exact ⟨u', h1, List.Sublist.cons _ h2, h3, h4⟩
          | false =>
            obtain ⟨u', h1, h2, h3, h4⟩ := ih (uniq ++ [j]) (h0 :: seen)
            refine ⟨j :: u', ?_, List.Sublist.cons₂ _ h2, ?_, ?_⟩
            · rw [h1, List.append_assoc]
              rfl
            · intro x hx
              rcases hx with _ | hx
              · exact ⟨h0, hg⟩
              · exact h3 x (by assumption)
            · intro hh
              rw [h4 hh]
              constructor
              · rintro (hin | hin)
                · rcases List.mem_cons.mp hin with rfl | hin
                  · exact Or.inr ⟨j, by simp, hg⟩
                  · exact Or.inl hin
                · obtain ⟨x, hx1, hx2⟩ := hin
                  exact Or.inr ⟨x, by simp [hx1], hx2⟩
              · rintro (hin | hin)
                · exact Or.inl (by simp [hin])
                · obtain ⟨x, hx1, hx2⟩ := hin
                  rcases List.mem_cons.mp hx1 with rfl | hx1
                  · rw [hg] at hx2
                    have heq : h0 = hh := by
                      injection hx2
                    exact Or.inl (by simp [heq.symm])
                  · exact Or.inr ⟨x, hx1, hx2⟩

theorem remove_duplicates_snd (t : ℚ) (seen : List String) (jobs : List Job) :
    (remove_duplicates t seen jobs).2 = (removeDupLoop t jobs [] seen).2.1 := rfl

theorem remove_duplicates_mem_snd (t : ℚ) (seen : List String)
    (jobs : List Job) (hh : String) :
    hh ∈ (remove_duplicates t seen jobs).2 ↔
      hh ∈ seen ∨ ∃ j ∈ acceptedJobs t seen jobs, generateJobHash j = .ok hh := by
  obtain ⟨u', h1, _, _, h4⟩ := removeDupLoop_spec t jobs [] seen
  rw [remove_duplicates_snd, h4 hh]
  have hacc : acceptedJobs t seen jobs = u' := by
    unfold acceptedJobs
    rw [h1, List.nil_append]
  rw [hacc]

theorem acceptedJobs_hash_ok (t : ℚ) (seen : List String) (jobs : List Job) :
    ∀ j ∈ acceptedJobs t seen jobs, ∃ hh, generateJobHash j = .ok hh := by
  obtain ⟨u', h1, _, h3, _⟩ := removeDupLoop_spec t jobs [] seen
  have hacc : acceptedJobs t seen jobs = u' := by
    unfold acceptedJobs
    rw [h1, List.nil_append]
  rw [hacc]
  exact h3

theorem acceptedJobs_hash_mem (t : ℚ) (seen : List String) (jobs : List Job) :
    ∀ j ∈ acceptedJobs t seen jobs,
      ∃ hh, generateJobHash j = .ok hh ∧
        hh ∈ (remove_duplicates t seen jobs).2 := by
  intro j hj
  obtain ⟨hh, hok⟩ := acceptedJobs_hash_ok t seen jobs j hj
  exact ⟨hh, hok, (remove_duplicates_mem_snd t seen jobs hh).mpr
    (Or.inr ⟨j, hj, hok⟩)⟩

theorem seen_monotone (t : ℚ) (seen : List String) (jobs : List Job) :
    ∀ hh ∈ seen, hh ∈ (remove_duplicates t seen jobs).2 := by
  intro hh hmem
  exact (remove_duplicates_mem_snd t seen jobs hh).mpr (Or.inl hmem)

theorem runCalls_spec (t : ℚ) :
    ∀ (batches : List (List Job)) (seen : List String),
      (∀ hh, hh ∈ (runCalls t batches seen).1 ↔
        hh ∈ seen ∨ ∃ j ∈ (runCalls t batches seen).2.flatten,
          generateJobHash j = .ok hh)
      ∧ (∀ j ∈ (runCalls t batches seen).2.flatten,
          ∃ hh, generateJobHash j = .ok hh ∧ hh ∈ (runCalls t batches seen).1) := by
  intro batches
  induction batches with
  | nil =>
    intro seen
    constructor
    · intro hh
      simp [runCalls]
    · intro j hj
      simp [runCalls] at hj
  | cons js rest ih =>
    intro seen
    have hfst : (runCalls t (js :: rest) seen).1 =
        (runCalls t rest (remove_duplicates t seen js).2).1 := rfl
    have hsnd : (runCalls t (js :: rest) seen).2 =
        acceptedJobs t seen js :: (runCalls t rest (remove_duplicates t seen js).2).2 := rfl
    obtain ⟨ih1, ih2⟩ := ih (remove_duplicates t seen js).2
    constructor
    · intro hh
      rw [hfst, ih1 hh, remove_duplicates_mem_snd t seen js hh, hsnd,
        List.flatten_cons]
      simp only [List.mem_append]
      constructor
      · rintro ((hin | ⟨j, hj1, hj2⟩) | ⟨j, hj1, hj2⟩)
        · exact Or.inl hin
        · exact Or.inr ⟨j, Or.inl hj1, hj2⟩
        · exact Or.inr ⟨j, Or.inr hj1, hj2⟩
      · rintro (hin | ⟨j, hj1 | hj1, hj2⟩)
        · exact Or.inl (Or.inl hin)
        · exact Or.inl (Or.inr ⟨j, hj1, hj2⟩)
        · exact Or.inr ⟨j, hj1, hj2⟩
    · intro j hj
      rw [hsnd, List.flatten_cons] at hj
      rcases List.mem_append.mp hj with hj2 | hj2
      · obtain ⟨hh, hok, hmem⟩ := acceptedJobs_hash_mem t seen js j hj2
        refine ⟨hh, hok, ?_⟩
        rw [hfst]
        exact (ih1 hh).mpr (Or.inl hmem)
      · obtain ⟨hh, hok, hmem⟩ := ih2 j hj2
        refine ⟨hh, hok, ?_⟩
        rw [hfst]
        exact hmem

/-! ### `get_duplicate_groups` loop invariants -/

theorem groupInner_spec (t : ℚ) (s : Job) :
    ∀ (l : List (Nat × Job)) (proc : List Nat) (ms : List (Nat × Job))
      (p' : List Nat),
      groupInner t s l proc = .ok (ms, p') →
      List.Sublist ms l ∧
      (∀ i, i ∈ p' ↔ i ∈ proc ∨ i ∈ ms.map Prod.fst) ∧
      (∀ m ∈ ms, m.1 ∉ proc ∧ isSimilarToExisting t m.2 [s] = .ok true) := by
  intro l
  induction l with
  | nil =>
    intro proc ms p' h
    rw [groupInner] at h
    obtain ⟨rfl, rfl⟩ := Prod.mk.injEq .. ▸ (Except.ok.inj h)
    refine ⟨List.Sublist.refl _, fun i => by simp, by simp⟩
  | cons jo rest ih =>
    rcases jo with ⟨j, o⟩
    intro proc ms p' h
    rw [groupInner] at h
    by_cases hj : j ∈ proc
    · rw [if_pos hj] at h
      obtain ⟨h1, h2, h3⟩ := ih proc ms p' h
      exact ⟨List.Sublist.cons _ h1, h2, h3⟩
    · rw [if_neg hj] at h
      cases hsim : isSimilarToExisting t o [s] with
      | error e =>
        rw [hsim] at h
        cases h
      | ok b =>
        rw [hsim] at h
        cases b with
        | false =>
          obtain ⟨h1, h2, h3⟩ := ih proc ms p' h
          exact ⟨List.Sublist.cons _ h1, h2, h3⟩
        | true =>
          cases hrec : groupInner t s rest (j :: proc) with
          | error e =>
            rw [hrec] at h
            cases h
          | ok pr =>
            rw [hrec] at h
            rcases pr with ⟨ms1, p1⟩
            obtain ⟨rfl, rfl⟩ := Prod.mk.injEq .. ▸ (Except.ok.inj h)
            obtain ⟨h1, h2, h3⟩ := ih (j :: proc) ms1 p1 hrec
            refine ⟨List.Sublist.cons₂ _ h1, ?_, ?_⟩
            · intro i
              rw [h2 i]
              simp only [List.mem_cons, List.map_cons]
              constructor
              · rintro ((rfl | hin) | hin)
                · exact Or.inr (by simp)
                · exact Or.inl hin
                · exact Or.inr (by simp [hin])
              · rintro (hin | (rfl | hin))
                · exact Or.inl (Or.inr hin)
                · exact Or.inl (Or.inl rfl)
                · exact Or.inr hin
            · intro m hm
              rcases List.mem_cons.mp hm with rfl | hm
              · exact ⟨hj, hsim⟩
              · obtain ⟨hm1, hm2⟩ := h3 m hm
                exact ⟨fun hc => hm1 (by simp [hc]), hm2⟩

theorem gdgLoop_spec (t : ℚ) :
    ∀ (l : List (Nat × Job)) (proc : List Nat) (gs : List (List (Nat × Job))),
      gdgLoop t l proc = .ok gs →
      (∀ g ∈ gs, 2 ≤ g.length) ∧
      (∀ g ∈ gs, ∀ p ∈ g, p.1 ∉ proc) ∧
      List.Pairwise (fun g1 g2 => ∀ p ∈ g1, ∀ q ∈ g2, p.1 ≠ q.1) gs ∧
      (∀ g ∈ gs, ∃ s ms, g = s :: ms ∧ ms ≠ [] ∧
        ∀ m ∈ ms, isSimilarToExisting t m.2 [s.2] = .ok true) := by
  intro l
  induction l with
  | nil =>
    intro proc gs h
    rw [gdgLoop] at h
    obtain rfl := (Except.ok.inj h).symm
    exact ⟨by simp, by simp, by simp, by simp⟩
  | cons ij rest ih =>
    rcases ij with ⟨i, job⟩
    intro proc gs h
    rw [gdgLoop] at h
    by_cases hi : i ∈ proc
    · rw [if_pos hi] at h
      exact ih proc gs h
    · rw [if_neg hi] at h
      cases hgi : groupInner t job rest (i :: proc) with
      | error e =>
        rw [hgi] at h
        cases h
      | ok pr =>
        rw [hgi] at h
        rcases pr with ⟨ms, p'⟩
        simp only [bind, Except.bind] at h
        obtain ⟨hsub, hiff, hmem⟩ := groupInner_spec t job rest (i :: proc) ms p' hgi
        cases hrec : gdgLoop t rest p' with
        | error e =>
          rw [hrec] at h
          cases h
        | ok gs' =>
          rw [hrec] at h
          dsimp only at h
          obtain ⟨ih1, ih2, ih3, ih4⟩ := ih p' gs' hrec
          have hproc_sub : ∀ x, x ∈ proc → x ∈ p' := fun x hx =>
            (hiff x).mpr (Or.inl (by simp [hx]))
          have hg0_sub : ∀ p ∈ (i, job) :: ms, p.1 ∈ p' := by
            intro p hp
            rcases List.mem_cons.mp hp with rfl | hp
            · exact (hiff i).mpr (Or.inl (by simp))
            · exact (hiff p.1).mpr (Or.inr (List.mem_map.mpr ⟨p, hp, rfl⟩))
          cases hms : ms with
          | nil =>
            subst hms
            rw [if_neg (by simp)] at h
            obtain rfl := (Except.ok.inj h).symm
            refine ⟨ih1, ?_, ih3, ih4⟩
            intro g hg p hp hcp
            exact ih2 g hg p hp (hproc_sub p.1 hcp)
          | cons m0 mrest =>
            subst hms
            rw [if_pos (by simp)] at h
            obtain rfl := (Except.ok.inj h).symm
            refine ⟨?_, ?_, ?_, ?_⟩
            · intro g hg
              rcases List.mem_cons.mp hg with rfl | hg
              · simp only [List.length_cons]
                omega
              · exact ih1 g hg
            · intro g hg p hp
              rcases List.mem_cons.mp hg with rfl | hg
              · rcases List.mem_cons.mp hp with rfl | hp
                · exact hi
                · intro hc
                  exact (hmem p hp).1 (by simp [hc])
              · intro hc
                exact ih2 g hg p hp (hproc_sub p.1 hc)
            · refine List.Pairwise.cons ?_ ih3
              intro g' hg' p hp q hq hpq
              exact ih2 g' hg' q hq (hpq ▸ hg0_sub p hp)
            · intro g hg
              rcases List.mem_cons.mp hg with rfl | hg
              · exact ⟨(i, job), m0 :: mrest, rfl, by simp,
                  fun m hm => (hmem m hm).2⟩
              · exact ih4 g hg

/-! ### Similarity-ratio lemmas for the symmetry analysis -/

theorem foldl_flmStep_nil_b (a : List Char) (blo bhi : Nat)
    (best : Nat × Nat × Nat) :
    ∀ L : List Nat, L.foldl (flmStep a (b2jOf []) blo bhi) (best, []) =
      (best, []) := by
  intro L
  induction L with
  | nil => rfl
  | cons i L ih =>
    rw [List.foldl_cons]
    rw [show flmStep a (b2jOf []) blo bhi (best, []) i = (best, []) from rfl]
    exact ih

theorem extRight_nil_b (a : List Char) (ahi : Nat) :
    ∀ fuel, extRight a [] ahi 0 0 0 fuel 0 = 0 := by
  intro fuel
  cases fuel with
  | zero => rfl
  | succ f =>
    rw [extRight]
    rw [if_neg (by simp)]

theorem smTotal_nil_left (b : List Char) : smTotal [] b = 0 := rfl

theorem smTotal_nil_right (a : List Char) : smTotal a [] = 0 := by
  unfold smTotal
  show matchesTotal a [] (b2jOf []) (a.length + 1) 0 a.length 0 0 = 0
  rw [matchesTotal]
  have hdp : flmDP a (b2jOf []) 0 a.length 0 0 = (0, 0, 0) := by
    unfold flmDP
    rw [foldl_flmStep_nil_b]
  have hflm : flm a [] (b2jOf []) 0 a.length 0 0 = (0, 0, 0) := by
    unfold flm
    rw [hdp]
    show (0, 0, extRight a [] a.length 0 0 0 a.length 0) = (0, 0, 0)
    rw [extRight_nil_b]
  rw [hflm]
  simp

theorem b2jOf_single_ne {x y : Char} (h : x ≠ y) : b2jOf [y] x = [] := by
  unfold b2jOf isPopular
  rw [if_neg]
  · simp [List.enum, Ne.symm h]
  · simp

theorem smTotal_single_ne {x y : Char} (h : x ≠ y) : smTotal [x] [y] = 0 := by
  unfold smTotal
  show matchesTotal [x] [y] (b2jOf [y]) 2 0 1 0 1 = 0
  have hdp : flmDP [x] (b2jOf [y]) 0 1 0 1 = (0, 0, 0) := by
    unfold flmDP
    show (List.foldl (flmStep [x] (b2jOf [y]) 0 1) ((0, 0, 0), []) [0]).1 = _
    rw [List.foldl_cons, List.foldl_nil]
    unfold flmStep
    rw [show ([x].getD 0 '\x00') = x from rfl, b2jOf_single_ne h]
    rfl
  have hflm : flm [x] [y] (b2jOf [y]) 0 1 0 1 = (0, 0, 0) := by
    unfold flm
    rw [hdp]
    show (0, 0, extRight [x] [y] 1 1 0 0 1 0) = (0, 0, 0)
    rw [extRight]
    rw [if_neg (by simp [h])]
  rw [matchesTotal, hflm]
  simp

theorem ratioQ_nil_comm (b : List Char) : ratioQ [] b = ratioQ b [] := by
  unfold ratioQ
  rw [smTotal_nil_left, smTotal_nil_right]
  cases b with
  | nil => rfl
  | cons c r =>
    rw [if_neg (by simp), if_neg (by simp)]
    simp

theorem ratioQ_single_comm (a b : List Char) (ha : a.length ≤ 1)
    (hb : b.length ≤ 1) : ratioQ a b = ratioQ b a := by
  rcases a with _ | ⟨x, _ | ⟨x2, xr⟩⟩
  · exact ratioQ_nil_comm b
  · rcases b with _ | ⟨y, _ | ⟨y2, yr⟩⟩
    · exact (ratioQ_nil_comm [x]).symm
    · by_cases hxy : x = y
      · subst hxy
        rfl
      · unfold ratioQ
        rw [smTotal_single_ne hxy, smTotal_single_ne (Ne.symm hxy)]
        norm_num
    · simp at hb
  · simp at ha

/-! ### Claim theorems -/

/-- C8: the normalizer is idempotent: for every string `s`,
`normalize(normalize(s)) = normalize(s)`, where normalize lowercases,
collapses whitespace runs, strips characters that are not word characters
or whitespace, removes the fixed stop-word set, and rejoins surviving
tokens with single spaces. -/
theorem C8_normalize_idempotent (s : String) :
    normalizeText (normalizeText s) = normalizeText s :=
  normalizeText_idem s

/-- C9 counterexample: the similarity ratio of `difflib.SequenceMatcher` is
not symmetric: on the concrete pair `"ab"` / `"bacb"` the two orders give
2/3 and 1/3 (the greedy matching finds 2 matched characters in one
direction but only 1 in the other). -/
theorem C9_counterexample :
    seqRatio ("ab") ("bacb") ≠ seqRatio ("bacb") ("ab") := by
  have h1 : smTotal ("ab").data ("bacb").data = 2 := by decide
  have h2 : smTotal ("bacb").data ("ab").data = 1 := by decide
  have l1 : ("ab").data.length = 2 := rfl
  have l2 : ("bacb").data.length = 4 := rfl
  unfold seqRatio ratioQ
  rw [h1, h2, l1, l2]
  norm_num

/-- C9 (amended): the similarity score is `2 * M / (len a + len b)` with a
symmetric denominator, but the matched total `M` depends on the argument
order, so symmetry fails in general; it does hold whenever either string is
empty, and whenever both strings have at most one character. -/
theorem C9_similarity_symmetry_restricted :
    (∀ b : List Char, ratioQ [] b = ratioQ b []) ∧
    (∀ a b : List Char, a.length ≤ 1 → b.length ≤ 1 →
      ratioQ a b = ratioQ b a) :=
  ⟨ratioQ_nil_comm, ratioQ_single_comm⟩

theorem C9_amended_witness :
    ("a").data.length ≤ 1 ∧ ("b").data.length ≤ 1 ∧
      ratioQ ("a").data ("b").data = ratioQ ("b").data ("a").data :=
  ⟨by decide, by decide,
    C9_similarity_symmetry_restricted.2 ("a").data ("b").data
      (by decide) (by decide)⟩

/-- C3: the fingerprint is the md5 hex digest of the four normalized fields
joined with `'|'`, with the normalized description truncated to its first
500 characters (truncation after normalization); its output always has the
fixed length 32 and consists of hex digits; it is unchanged by the
pass-through fields (`url` and the extra fields), by re-casing the four
fields, and by inserting or removing punctuation in them; missing fields
are read as the empty string by `fieldOrEmpty` inside `generateJobHash`. -/
theorem C3_fingerprint_spec :
    (∀ (j : Job) (t c lo de : String),
      normalizeV (fieldOrEmpty j.title) = .ok t →
      normalizeV (fieldOrEmpty j.company) = .ok c →
      normalizeV (fieldOrEmpty j.location) = .ok lo →
      normalizeV (fieldOrEmpty j.description) = .ok de →
      generateJobHash j =
        .ok (md5hex (t ++ ("|") ++ c ++ ("|") ++ lo ++ ("|") ++ de.take 500)))
    ∧ (∀ s : String, (md5hex s).length = 32 ∧
        ∀ ch ∈ (md5hex s).data, ch ∈ hexDigits)
    ∧ (∀ (j : Job) (u : Option PyVal) (e : List (String × PyVal)),
        generateJobHash { j with url := u, extra := e } = generateJobHash j)
    ∧ (∀ j : Job,
        generateJobHash (jobFieldsMap (strCase toUpperCh) j) = generateJobHash j)
    ∧ (∀ j : Job,
        generateJobHash (jobFieldsMap stripPunct j) = generateJobHash j) := by
  refine ⟨?_, ?_, ?_, ?_, ?_⟩
  · intro j t c lo de h1 h2 h3 h4
    unfold generateJobHash
    rw [h1, h2, h3, h4]
    rfl
  · intro s
    exact ⟨md5hex_length s, md5hex_chars s⟩
  · intro j u e
    rfl
  · intro j
    exact generateJobHash_fieldsMap normalizeText_upperCase j
  · intro j
    exact generateJobHash_fieldsMap normalizeText_stripPunct j

theorem C3_witness :
    normalizeV (fieldOrEmpty wJob1.title) = .ok ("software intern") ∧
    normalizeV (fieldOrEmpty wJob1.company) = .ok ("acme corp") ∧
    normalizeV (fieldOrEmpty wJob1.location) = .ok ("nyc") ∧
    normalizeV (fieldOrEmpty wJob1.description) = .ok ("great job") ∧
    generateJobHash wJob1 =
      .ok (md5hex (("software intern") ++ ("|") ++ ("acme corp") ++ ("|") ++
        ("nyc") ++ ("|") ++ ("great job").take 500)) := by
  refine ⟨rfl, rfl, rfl, rfl, ?_⟩
  exact C3_fingerprint_spec.1 wJob1 ("software intern") ("acme corp")
    ("nyc") ("great job") rfl rfl rfl rfl

theorem remove_duplicates_fst (t : ℚ) (seen : List String) (jobs : List Job) :
    (remove_duplicates t seen jobs).1 =
      if (removeDupLoop t jobs [] seen).2.2 then (removeDupLoop t jobs [] seen).1
      else jobs := rfl

/-- C1: for every input batch and every engine state, the list returned by
`remove_duplicates` is a subsequence of the input (each survivor occurs in
the input and relative order is preserved), and its length is at most the
input length.  This also covers the degraded `except` path, which returns
the input itself. -/
theorem C1_remove_duplicates_subsequence (t : ℚ) (seen : List String)
    (jobs : List Job) :
    List.Sublist (remove_duplicates t seen jobs).1 jobs ∧
    (remove_duplicates t seen jobs).1.length ≤ jobs.length := by
  obtain ⟨u', h1, h2, _, _⟩ := removeDupLoop_spec t jobs [] seen
  have hsub : List.Sublist (remove_duplicates t seen jobs).1 jobs := by
    rw [remove_duplicates_fst]
    by_cases hb : (removeDupLoop t jobs [] seen).2.2
    · rw [if_pos hb, h1, List.nil_append]
      exact h2
    · rw [if_neg hb]
  exact ⟨hsub, hsub.length_le⟩

/-- C7: `remove_duplicates` never propagates an exception: the model is a
total function, and when the loop stops early on an internal error (the
completion flag is `false`) the call returns the original input list
unchanged. -/
theorem C7_error_returns_input (t : ℚ) (seen : List String) (jobs : List Job)
    (h : (removeDupLoop t jobs [] seen).2.2 = false) :
    (remove_duplicates t seen jobs).1 = jobs := by
  rw [remove_duplicates_fst, h]
  rfl

theorem C7_witness :
    (removeDupLoop (4 / 5 : ℚ) [wBadJob] [] []).2.2 = false ∧
    (remove_duplicates (4 / 5 : ℚ) [] [wBadJob]).1 = [wBadJob] :=
  ⟨rfl, C7_error_returns_input (4 / 5) [] [wBadJob] rfl⟩

theorem generateJobHash_fields_eq {j1 j2 : Job} (hT : j1.title = j2.title)
    (hC : j1.company = j2.company) (hL : j1.location = j2.location)
    (hD : j1.description = j2.description) :
    generateJobHash j1 = generateJobHash j2 := by
  unfold generateJobHash
  rw [hT, hC, hL, hD]

theorem normalize_ok_of_hash_ok {j : Job} {hh : String}
    (h : generateJobHash j = .ok hh) :
    ∃ a b, normalizeV (fieldOrEmpty j.title) = .ok a ∧
      normalizeV (fieldOrEmpty j.company) = .ok b := by
  unfold generateJobHash at h
  cases h1 : normalizeV (fieldOrEmpty j.title) with
  | error e =>
    rw [h1] at h
    simp only [bind, Except.bind] at h
    exact Except.noConfusion h
  | ok a =>
    rw [h1] at h
    simp only [bind, Except.bind] at h
    cases h2 : normalizeV (fieldOrEmpty j.company) with
    | error e =>
      rw [h2] at h
      simp only [bind, Except.bind] at h
      exact Except.noConfusion h
    | ok b => exact ⟨a, b, rfl, rfl⟩

theorem isSimilar_nil {t : ℚ} {j : Job} {a b : String}
    (h1 : normalizeV (fieldOrEmpty j.title) = .ok a)
    (h2 : normalizeV (fieldOrEmpty j.company) = .ok b) :
    isSimilarToExisting t j [] = .ok false := by
  unfold isSimilarToExisting
  rw [h1]
  simp only [bind, Except.bind]
  rw [h2]
  rfl

/-- C4: on a fresh (or just-reset) engine, a batch of exactly two
well-formed jobs whose `title`, `company`, `location` and `description`
coincide while `url` differs is reduced to exactly the first job: the
second is rejected through the exact-fingerprint path. -/
theorem C4_exact_duplicate_keeps_first (t : ℚ) (j1 j2 : Job)
    (hok : (generateJobHash j1).isOk = true)
    (hT : j1.title = j2.title) (hC : j1.company = j2.company)
    (hL : j1.location = j2.location) (hD : j1.description = j2.description)
    (_hurl : j1.url ≠ j2.url) :
    (remove_duplicates t [] [j1, j2]).1 = [j1] := by
  obtain ⟨hh, hg⟩ : ∃ hh, generateJobHash j1 = .ok hh := by
    cases hcase : generateJobHash j1 with
    | error e =>
      rw [hcase] at hok
      cases hok
    | ok v => exact ⟨v, rfl⟩
  have hg2 : generateJobHash j2 = .ok hh := by
    rw [← generateJobHash_fields_eq hT hC hL hD]
    exact hg
  obtain ⟨a, b, hna, hnb⟩ := normalize_ok_of_hash_ok hg
  have hsim : isSimilarToExisting t j1 [] = .ok false := isSimilar_nil hna hnb
  have hloop : removeDupLoop t [j1, j2] [] [] = ([j1], [hh], true) := by
    rw [removeDupLoop, hg]
    dsimp only
    rw [if_neg (by simp), hsim]
    show removeDupLoop t [j2] [j1] [hh] = _
    rw [removeDupLoop, hg2]
    dsimp only
    rw [if_pos (by simp)]
    rw [removeDupLoop]
  rw [remove_duplicates_fst, hloop]
  rfl

theorem C4_witness :
    (generateJobHash wJob1).isOk = true ∧ wJob1.title = wJob2.title ∧
    wJob1.company = wJob2.company ∧ wJob1.location = wJob2.location ∧
    wJob1.description = wJob2.description ∧ wJob1.url ≠ wJob2.url ∧
    (remove_duplicates (4 / 5 : ℚ) [] [wJob1, wJob2]).1 = [wJob1] :=
  ⟨rfl, rfl, rfl, rfl, rfl, by decide,
    C4_exact_duplicate_keeps_first (4 / 5) wJob1 wJob2 rfl rfl rfl rfl rfl
      (by decide)⟩

theorem isSimilar_single_rule (t : ℚ) (x y : Job) (xt xc yt yc : String)
    (hx1 : normalizeV (fieldOrEmpty x.title) = .ok xt)
    (hx2 : normalizeV (fieldOrEmpty x.company) = .ok xc)
    (hy1 : normalizeV (fieldOrEmpty y.title) = .ok yt)
    (hy2 : normalizeV (fieldOrEmpty y.company) = .ok yc) :
    isSimilarToExisting t x [y] =
      .ok (decide ((seqRatio xt yt > t ∧ seqRatio xc yc > t) ∨
        seqRatio xt yt > (19 : ℚ) / 20)) := by
  unfold isSimilarToExisting
  rw [hx1]
  simp only [bind, Except.bind]
  rw [hx2]
  show simLoop t xt xc [y] = _
  rw [simLoop, hy1]
  simp only [bind, Except.bind]
  rw [hy2]
  dsimp only
  by_cases hA : seqRatio xt yt > t ∧ seqRatio xc yc > t
  · rw [if_pos hA]
    simp [hA]
  · rw [if_neg hA]
    by_cases hB : seqRatio xt yt > (19 : ℚ) / 20
    · rw [if_pos hB]
      simp [hA, hB]
    · rw [if_neg hB]
      show simLoop t xt xc [] = _
      rw [simLoop]
      simp [hA, hB]

/-- C2: the pairwise similar-enough test shared by `remove_duplicates` and
`get_duplicate_groups` (both call `_is_similar_to_existing`) reports a
duplicate exactly when, over the normalized title and company fields,
both the title and the company similarity exceed the configured threshold,
or the title similarity exceeds 0.95. -/
theorem C2_similarity_rule (t : ℚ) (x y : Job) (xt xc yt yc : String)
    (hx1 : normalizeV (fieldOrEmpty x.title) = .ok xt)
    (hx2 : normalizeV (fieldOrEmpty x.company) = .ok xc)
    (hy1 : normalizeV (fieldOrEmpty y.title) = .ok yt)
    (hy2 : normalizeV (fieldOrEmpty y.company) = .ok yc) :
    isSimilarToExisting t x [y] =
      .ok (decide ((seqRatio xt yt > t ∧ seqRatio xc yc > t) ∨
        seqRatio xt yt > (19 : ℚ) / 20)) :=
  isSimilar_single_rule t x y xt xc yt yc hx1 hx2 hy1 hy2

theorem C2_witness :
    normalizeV (fieldOrEmpty wJobB.title) = .ok ("aab") ∧
    normalizeV (fieldOrEmpty wJobA.title) = .ok ("aabb") ∧
    isSimilarToExisting (4 / 5 : ℚ) wJobB [wJobA] =
      .ok (decide ((seqRatio ("aab") ("aabb") > (4 / 5 : ℚ) ∧
        seqRatio ("acme") ("acme") > (4 / 5 : ℚ)) ∨
        seqRatio ("aab") ("aabb") > (19 : ℚ) / 20)) :=
  ⟨rfl, rfl,
    C2_similarity_rule (4 / 5) wJobB wJobA ("aab") ("acme")
      ("aabb") ("acme") rfl rfl rfl rfl⟩

/-- C5: starting from a fresh engine (or one cleared by `reset_hashes`,
which always empties the set), after any sequence of `remove_duplicates`
calls every element of `seen_hashes` is the fingerprint of some record
accepted (appended to the call's `unique_jobs`) by one of those calls;
conversely every accepted record's fingerprint is in the final set; one
call extends the set exactly by the fingerprints of the records it
accepts, so similarity-rejected records add nothing; and the set never
shrinks across calls. -/
theorem C5_seen_hashes_invariant (t : ℚ) (batches : List (List Job)) :
    (∀ hh ∈ (runCalls t batches (reset_hashes [])).1,
      ∃ j, j ∈ (runCalls t batches (reset_hashes [])).2.flatten ∧
        generateJobHash j = .ok hh)
    ∧ (∀ j ∈ (runCalls t batches (reset_hashes [])).2.flatten,
        ∃ hh, generateJobHash j = .ok hh ∧
          hh ∈ (runCalls t batches (reset_hashes [])).1)
    ∧ (∀ (seen : List String) (jobs : List Job) (hh : String),
        hh ∈ (remove_duplicates t seen jobs).2 ↔
          hh ∈ seen ∨ ∃ j ∈ acceptedJobs t seen jobs, generateJobHash j = .ok hh)
    ∧ (∀ (seen : List String) (jobs : List Job) (hh : String),
        hh ∈ seen → hh ∈ (remove_duplicates t seen jobs).2)
    ∧ (∀ seen : List String, reset_hashes seen = []) := by
  obtain ⟨hr1, hr2⟩ := runCalls_spec t batches (reset_hashes [])
  refine ⟨?_, hr2, remove_duplicates_mem_snd t, seen_monotone t, fun _ => rfl⟩
  intro hh hmem
  rcases (hr1 hh).mp hmem with hin | ⟨j, hj1, hj2⟩
  · cases hin
  · exact ⟨j, hj1, hj2⟩

theorem C5_witness :
    ("h0" ∈ (["h0"] : List String)) ∧
    ("h0" ∈ (remove_duplicates (4 / 5 : ℚ) ["h0"] []).2) :=
  ⟨by decide,
    (C5_seen_hashes_invariant (4 / 5) []).2.2.2.1 ["h0"] [] ("h0") (by decide)⟩

/-- C10: if an internal exception occurs inside `get_duplicate_groups`
(the indexed grouping loop returns an error), the `except` branch swallows
it and the call returns the empty list: it never raises, and unlike
`remove_duplicates` it has no degraded passthrough of its input. -/
theorem C10_groups_error_returns_empty (t : ℚ) (jobs : List Job)
    (h : gdgLoop t jobs.enum [] = .error ()) :
    get_duplicate_groups t jobs = [] := by
  unfold get_duplicate_groups
  rw [h]

theorem C10_witness :
    gdgLoop (4 / 5 : ℚ) ([wJob1, wBadJob]).enum [] = .error () ∧
    get_duplicate_groups (4 / 5 : ℚ) [wJob1, wBadJob] = [] :=
  ⟨rfl, C10_groups_error_returns_empty (4 / 5) [wJob1, wBadJob] rfl⟩

/-- Evaluate a `ratio()` call once its matched total and the two lengths
are known and at least one side is non-empty. -/
theorem seqRatio_eval (x y : String) (m la lb : Nat)
    (hm : smTotal x.data y.data = m) (ha : x.data.length = la)
    (hb : y.data.length = lb) (h : ¬ (la + lb = 0)) :
    seqRatio x y = 2 * (m : ℚ) / ((la : ℚ) + (lb : ℚ)) := by
  unfold seqRatio ratioQ
  rw [hm, ha, hb, if_neg h]

/-- `wJobB` is similar to the seed `wJobA`: both the title ratio `6/7` and
the company ratio `1` exceed the threshold `4/5`. -/
theorem simBA_true :
    isSimilarToExisting (4 / 5 : ℚ) wJobB [wJobA] = .ok true := by
  rw [isSimilar_single_rule (4 / 5) wJobB wJobA ("aab") ("acme") ("aabb") ("acme")
    rfl rfl rfl rfl]
  refine congrArg Except.ok (decide_eq_true (Or.inl ⟨?_, ?_⟩))
  · rw [seqRatio_eval ("aab") ("aabb") 3 3 4 (by decide) rfl rfl (by decide)]
    norm_num
  · rw [seqRatio_eval ("acme") ("acme") 4 4 4 (by decide) rfl rfl (by decide)]
    norm_num

/-- `wJobC` is similar to the seed `wJobA`: both the title ratio `6/7` and
the company ratio `1` exceed the threshold `4/5`. -/
theorem simCA_true :
    isSimilarToExisting (4 / 5 : ℚ) wJobC [wJobA] = .ok true := by
  rw [isSimilar_single_rule (4 / 5) wJobC wJobA ("abb") ("acme") ("aabb") ("acme")
    rfl rfl rfl rfl]
  refine congrArg Except.ok (decide_eq_true (Or.inl ⟨?_, ?_⟩))
  · rw [seqRatio_eval ("abb") ("aabb") 3 3 4 (by decide) rfl rfl (by decide)]
    norm_num
  · rw [seqRatio_eval ("acme") ("acme") 4 4 4 (by decide) rfl rfl (by decide)]
    norm_num

/-- `wJobC` is NOT similar to `wJobB`: the title ratio is `2/3`, below both
the threshold `4/5` and the near-identity cutoff `19/20`. -/
theorem simCB_false :
    isSimilarToExisting (4 / 5 : ℚ) wJobC [wJobB] = .ok false := by
  rw [isSimilar_single_rule (4 / 5) wJobC wJobB ("abb") ("acme") ("aab") ("acme")
    rfl rfl rfl rfl]
  refine congrArg Except.ok (decide_eq_false ?_)
  have hv : seqRatio ("abb") ("aab") = 2 * ((2 : Nat) : ℚ) / ((3 : ℚ) + (3 : ℚ)) :=
    seqRatio_eval ("abb") ("aab") 2 3 3 (by decide) rfl rfl (by decide)
  intro hor
  rcases hor with ⟨h1, _⟩ | h1 <;> rw [hv] at h1 <;> norm_num at h1

/-- The seed-anchored non-transitivity scenario: if `B` and `C` are each
pairwise-similar to the seed `A`, the grouping loop puts all three in one
group, whatever `C` vs `B` says (members are only compared to the seed). -/
theorem gdg_abc (t : ℚ) (A B C : Job)
    (hB : isSimilarToExisting t B [A] = .ok true)
    (hC : isSimilarToExisting t C [A] = .ok true) :
    get_duplicate_groups t [A, B, C] = [[A, B, C]] := by
  have hgi2 : groupInner t A [(2, C)] [1, 0] = .ok ([(2, C)], [2, 1, 0]) := by
    rw [groupInner]; rw [if_neg (by simp)]; rw [hC]
    simp only [bind, Except.bind]; rw [groupInner]; simp
  have hgi : groupInner t A [(1, B), (2, C)] [0] = .ok ([(1, B), (2, C)], [2, 1, 0]) := by
    rw [groupInner]; rw [if_neg (by simp)]; rw [hB]
    simp only [bind, Except.bind]; rw [hgi2]; simp
  have htail : gdgLoop t [(1, B), (2, C)] [2, 1, 0] = .ok [] := by
    rw [gdgLoop]; rw [if_pos (by simp)]; rw [gdgLoop]; rw [if_pos (by simp)]; rw [gdgLoop]
  have hgd : gdgLoop t [(0, A), (1, B), (2, C)] [] = .ok [[(0, A), (1, B), (2, C)]] := by
    rw [gdgLoop]; rw [if_neg (by simp)]; rw [hgi]
    simp only [bind, Except.bind]; rw [htail]
    simp only [bind, Except.bind]; rfl
  show (match gdgLoop t ([A, B, C]).enum [] with
    | .ok gs => gs.map (fun g => g.map Prod.snd)
    | .error _ => []) = [[A, B, C]]
  rw [show ([A, B, C]).enum = [(0, A), (1, B), (2, C)] from rfl, hgd]
  rfl

/-- C6: `get_duplicate_groups` scans the indexed jobs in input order,
opens a group at each not-yet-processed index, fills it with every later
unprocessed job that is pairwise-similar to that seed only, and keeps only
groups with more than one member.  First part: whenever the indexed loop
succeeds, the returned groups all have at least 2 members, use pairwise
disjoint index sets, and consist of a seed followed by a non-empty list of
members each similar to the seed (never compared to other members).
Second part: the non-transitivity scenario — three jobs `A`, `B`, `C`
with `B` and `C` each similar to `A` but `C` not similar to `B` yield the
single group `[A, B, C]`. -/
theorem C6_grouping_spec (t : ℚ) :
    (∀ (jobs : List Job) (gs : List (List (Nat × Job))),
      gdgLoop t jobs.enum [] = .ok gs →
      get_duplicate_groups t jobs = gs.map (fun g => g.map Prod.snd) ∧
      (∀ g ∈ gs, 2 ≤ g.length) ∧
      List.Pairwise (fun g1 g2 => ∀ p ∈ g1, ∀ q ∈ g2, p.1 ≠ q.1) gs ∧
      (∀ g ∈ gs, ∃ s ms, g = s :: ms ∧ ms ≠ [] ∧
        ∀ m ∈ ms, isSimilarToExisting t m.2 [s.2] = .ok true)) ∧
    (∀ A B C : Job,
      isSimilarToExisting t B [A] = .ok true →
      isSimilarToExisting t C [A] = .ok true →
      isSimilarToExisting t C [B] = .ok false →
      get_duplicate_groups t [A, B, C] = [[A, B, C]]) := by
  constructor
  · intro jobs gs h
    obtain ⟨h1, _h2, h3, h4⟩ := gdgLoop_spec t jobs.enum [] gs h
    refine ⟨?_, h1, h3, h4⟩
    unfold get_duplicate_groups
    rw [h]
  · intro A B C hB hC _hCB
    exact gdg_abc t A B C hB hC

theorem C6_witness :
    get_duplicate_groups (4 / 5 : ℚ) [wJobA, wJobB, wJobC] = [[wJobA, wJobB, wJobC]] ∧
    get_duplicate_groups (4 / 5 : ℚ) ([] : List Job) = [] :=
  ⟨(C6_grouping_spec (4 / 5)).2 wJobA wJobB wJobC simBA_true simCA_true simCB_false,
    ((C6_grouping_spec (4 / 5)).1 [] [] rfl).1⟩
